import Mathlib

/-!
# Verification of `randomGenerator2.cpp`

A shallow embedding of the bounded language enumerator of
`src/randomGenerator2.cpp` (prefix function, pattern matching, canonical
ordering, concatenation, bounded power, output filter), followed by the
embedding of `src/util/graphMaker.cpp` and by theorems about both.

Modelling conventions.

* A C++ `std::string` is a `List Char`; `a + b` is `++`, `sz(a)` is `length`.
  Characters are compared by code point, which for byte values is the order
  `std::string::operator<` uses.
* A `vector<T>` is a `List T`; `push_back` appends at the end.
* A read `v[i]` outside `0 ≤ i < size` is undefined behaviour in the source and
  is modelled as failure (`none`).  Functions that index therefore return
  `Option`.
* The `while` loop of `pi` is run with fuel `sz(s)`; running out of fuel is
  modelled as `none`.
* The entries of the prefix-function table are only ever `0`, a copy of another
  entry, or an entry plus one, so they are modelled in `Nat`.  The indices that
  `match` reports are computed by a subtraction and are modelled in `Int`.
  Overflow of the `int` indices and sizes of `pi`, `match` and `specialValid`
  is not modelled: it needs strings of more than `2^31` characters.
* The `int` counter of the loop of `power` does overflow, at `expo = INT_MAX`,
  whatever the size of the strings.  `power` is the list the loop computes in
  `expo` iterations; `powerInt` runs the loop with its `int` counter and fails
  where `i++` overflows.
-/

namespace RandomGenerator2

/-- A C++ `std::string`. -/
abbrev Str := List Char

/-- The separator character `'\0'` used by `match`. -/
def sep : Char := Char.ofNat 0

/-! ## Prefix function and matching -/

/-- The inner loop of `pi`: `while (g && s[i] != s[g]) g = p[g-1];`.
Returns the value of `g` when the loop exits. -/
def piWhile (s : Str) (p : List Nat) (i : Nat) : Nat → Nat → Option Nat
  | 0, _ => none
  | fuel + 1, g =>
    if g = 0 then some g
    else do
      let si ← s[i]?
      let sg ← s[g]?
      if si ≠ sg then do
        let g' ← p[g - 1]?
        piWhile s p i fuel g'
      else some g

/-- The outer loop of `pi`, `rep(i,1,sz(s))`, with `k` iterations left. -/
def piLoop (s : Str) : Nat → Nat → List Nat → Option (List Nat)
  | 0, _, p => some p
  | k + 1, i, p => do
    let g0 ← p[i - 1]?
    let g ← piWhile s p i s.length g0
    let si ← s[i]?
    let sg ← s[g]?
    if i < p.length then
      piLoop s k (i + 1) (p.set i (g + if si = sg then 1 else 0))
    else none

/-- The function `pi`: the table `p` after the loop. -/
def pi (s : Str) : Option (List Nat) :=
  piLoop s (s.length - 1) 1 (List.replicate s.length 0)

/-- The loop of `match`, `rep(i,sz(p)-sz(s),sz(p))`, with `k` iterations left. -/
def matchLoop (p : List Nat) (patLen : Nat) : Nat → Nat → List Int → Option (List Int)
  | 0, _, res => some res
  | k + 1, i, res => do
    let v ← p[i]?
    matchLoop p patLen k (i + 1)
      (if v = patLen then res ++ [(i : Int) - 2 * (patLen : Int)] else res)

/-- The function `match(s, pat)`. -/
def match_ (s pat : Str) : Option (List Int) := do
  let p ← pi (pat ++ [sep] ++ s)
  matchLoop p pat.length (p.length - (p.length - s.length)) (p.length - s.length) []

/-! ## Canonical order and deduplication -/

/-- The comparison `a < b` of `std::string`: lexicographic on characters. -/
def strLt : Str → Str → Bool
  | _, [] => false
  | [], _ :: _ => true
  | a :: as, b :: bs => if a < b then true else if b < a then false else strLt as bs

/-- The function `cmp`: shorter strings first, then lexicographic. -/
def cmp (a b : Str) : Bool :=
  if a.length ≠ b.length then decide (a.length < b.length) else strLt a b

/-- The call `sort(all(res), cmp)`.  `cmp` is a strict total order, so every
sorting algorithm returns the same list; insertion sort is used here. -/
def sort (res : List Str) : List Str :=
  res.insertionSort (fun a b => cmp b a = false)

/-- The scan of `std::unique` after the element `prev` has been kept. -/
def uniqueFrom (prev : Str) : List Str → List Str
  | [] => []
  | b :: t => if prev = b then uniqueFrom prev t else b :: uniqueFrom b t

/-- The call `res.erase(unique(all(res)), res.end())`: every run of equal
consecutive elements is reduced to its first element. -/
def unique : List Str → List Str
  | [] => []
  | a :: t => a :: uniqueFrom a t

/-- The function `uniquize`. -/
def uniquize (res : List Str) : List Str :=
  unique (sort res)

/-! ## Concatenation and bounded power -/

/-- The function `concat`. -/
def concat (A B : List Str) : List Str :=
  uniquize (A.flatMap (fun a => B.map (fun b => a ++ b)))

/-- The state `(base, res)` of the loop of `power`. -/
abbrev PowerState := List Str × List Str

/-- One iteration of the loop of `power`. -/
def powerStep (A : List Str) (st : PowerState) : PowerState :=
  (concat A st.1, st.2 ++ concat A st.1)

/-- The state of `power` before the loop. -/
def powerInit (isStar : Bool) : PowerState :=
  ([[]], (if isStar then [[]] else []) ++ [[]])

/-- The state of `power` after `n` iterations of the loop. -/
def powerLoop (A : List Str) (isStar : Bool) : Nat → PowerState
  | 0 => powerInit isStar
  | n + 1 => powerStep A (powerLoop A isStar n)

/-- The function `power` on a run whose loop terminates, that is for
`expo < INT_MAX`: the loop `for (i = 1; i <= expo; i++)` runs `expo` times, and
not at all for a negative `expo`.  For `expo = INT_MAX` the loop of the source
never exits; see `powerInt`. -/
def power (A : List Str) (expo : Int) (isStar : Bool) : List Str :=
  uniquize (powerLoop A isStar expo.toNat).2

/-- The largest value of the 32-bit type `int`. -/
def INT_MAX : Int := 2147483647

/-- The loop of `power` with its `int` counter, `for(int i = 1;i <= expo;i++)`,
from the counter value `i` and the state `st`.  After the body, `i++` at
`i = INT_MAX` overflows; this undefined behaviour is modelled as failure
(`none`), and so is running out of fuel. -/
def powerLoopInt (A : List Str) (expo : Int) : Nat → Int → PowerState → Option PowerState
  | 0, _, _ => none
  | fuel + 1, i, st =>
    if i ≤ expo then
      if i = INT_MAX then none
      else powerLoopInt A expo fuel (i + 1) (powerStep A st)
    else some st

/-- The function `power` with the `int` counter of its loop, run with fuel
`expo + 1`. -/
def powerInt (A : List Str) (expo : Int) (isStar : Bool) : Option (List Str) :=
  (powerLoopInt A expo (expo.toNat + 1) 1 (powerInit isStar)).map
    (fun st => uniquize st.2)

/-! ## Output filter of `main` -/

/-- The function `isValid` as compiled: it returns `1`. -/
def isValid (_S : Str) : Bool := true

/-- The constant `INF`. -/
def INF : Int := 1061109567

/-- The filter loop of `main` over the candidates `isi` with the counter
`cntout`; the result is the sequence of printed strings. -/
def filterLoop (valid : Str → Bool) : List Str → Int → List Str
  | [], _ => []
  | cur :: rest, cntout =>
    if valid cur then
      cur :: (if cntout - 1 ≤ 0 then [] else filterLoop valid rest (cntout - 1))
    else filterLoop valid rest cntout

/-- The body of `main` with its compile-time choices (predicate, base,
exponent, output limit) as parameters. -/
def mainWith (valid : Str → Bool) (A : List Str) (expo : Int) (limit : Int) : List Str :=
  filterLoop valid (uniquize (power A expo true)) limit

/-- The lines printed by `main` as compiled. -/
def main : List Str :=
  mainWith isValid [['0'], ['1']] 10 INF

/-- The validity predicate of the end-to-end scenario, "the string contains the
substring `pat`": `match(S, pat)` is non-empty.  The source has a predicate of
this shape as a commented-out line of `isValid`,
`return sz(match(S, "aaa")) == 1;`. -/
def containsPat (pat : Str) (S : Str) : Bool :=
  match match_ S pat with
  | some res => decide (0 < res.length)
  | none => false

/-! ## Specification vocabulary -/

/-- The (length, then lexicographic) order on strings, stated without `cmp`:
`a` is shorter than `b`, or they have the same length and `a` precedes `b`
lexicographically. -/
def LengthLex (a b : Str) : Prop :=
  a.length < b.length ∨ (a.length = b.length ∧ List.Lex (· < ·) a b)

/-- `k` is the length of a proper border of the prefix of `s` of length `m`:
`k < m` and the first `k` characters of `s` equal the `k` characters ending
just before position `m`. -/
def Border (s : Str) (m k : Nat) : Prop :=
  k < m ∧ ∀ j, j < k → s[j]? = s[m - k + j]?

/-- `v` is the length of the longest proper border of the prefix of `s` of
length `m`. -/
def IsMaxBorder (s : Str) (m v : Nat) : Prop :=
  Border s m v ∧ ∀ k, Border s m k → k ≤ v

/-- The table `p` is correct below index `i`. -/
def TableOk (s : Str) (p : List Nat) (i : Nat) : Prop :=
  ∀ j, j < i → ∃ v, p[j]? = some v ∧ IsMaxBorder s (j + 1) v

/-! ## Prefix filter -/

/-- The loop of `eachPrefix`, `trav(ch, S)`, over the characters still to be
read, with the prefix `curpref` built so far.  The predicate `isValid` of the
source is a parameter. -/
def eachPrefixLoop (valid : Str → Bool) (curpref : Str) : Str → Bool
  | [] => true
  | ch :: rest =>
    if !valid (curpref ++ [ch]) then false
    else eachPrefixLoop valid (curpref ++ [ch]) rest

/-- The function `eachPrefix`. -/
def eachPrefix (valid : Str → Bool) (S : Str) : Bool :=
  eachPrefixLoop valid [] S

/-! ## Step counting for `pi` and `match` -/

/-- The inner loop of `pi` as `piWhile`, returning in addition the number of
executions of its body `g = p[g-1]`. -/
def piWhileCount (s : Str) (p : List Nat) (i : Nat) : Nat → Nat → Option (Nat × Nat)
  | 0, _ => none
  | fuel + 1, g =>
    if g = 0 then some (g, 0)
    else do
      let si ← s[i]?
      let sg ← s[g]?
      if si ≠ sg then do
        let g' ← p[g - 1]?
        let r ← piWhileCount s p i fuel g'
        some (r.1, r.2 + 1)
      else some (g, 0)

/-- The outer loop of `pi` as `piLoop`, with the running total `c` of
inner-loop body executions. -/
def piLoopCount (s : Str) : Nat → Nat → List Nat → Nat → Option (List Nat × Nat)
  | 0, _, p, c => some (p, c)
  | k + 1, i, p, c => do
    let g0 ← p[i - 1]?
    let r ← piWhileCount s p i s.length g0
    let si ← s[i]?
    let sg ← s[r.1]?
    if i < p.length then
      piLoopCount s k (i + 1) (p.set i (r.1 + if si = sg then 1 else 0)) (c + r.2)
    else none

/-- The function `pi` together with the total number of inner-loop body
executions of the run. -/
def piCount (s : Str) : Option (List Nat × Nat) :=
  piLoopCount s (s.length - 1) 1 (List.replicate s.length 0) 0

/-- The number of loop-body executions of `pi(s)`: the `sz(s) - 1` iterations
of the outer loop plus the inner-loop body executions. -/
def piSteps (s : Str) : Option Nat :=
  (piCount s).map (fun r => (s.length - 1) + r.2)

/-- The number of loop-body executions of `match(s, pat)`: those of the call
of `pi` plus the `sz(s)` iterations of the loop of `match`. -/
def matchSteps (s pat : Str) : Option Nat :=
  (piSteps (pat ++ [sep] ++ s)).map (fun n => n + s.length)

/-- Every entry of the table is at most its index. -/
def TableLe (p : List Nat) : Prop :=
  ∀ (j v : Nat), p[j]? = some v → v ≤ j

/-! ## `specialValid` -/

/-- The loop of `specialValid`, `rep(i,1,sz(res))`, with `k` iterations left,
followed by `return sz(res) & 1;`. -/
def specialValidLoop (res : List Int) (patLen : Nat) : Nat → Nat → Option Bool
  | 0, _ => some (decide (res.length &&& 1 ≠ 0))
  | k + 1, i => do
    let a ← res[i - 1]?
    let b ← res[i]?
    if a + (patLen : Int) > b then some false
    else specialValidLoop res patLen k (i + 1)

/-- The function `specialValid(s, pat)`. -/
def specialValid (s pat : Str) : Option Bool := do
  let res ← match_ s pat
  specialValidLoop res pat.length (res.length - 1) 1

/-- The start indices of the occurrences of `pat` in `s`, in increasing order,
written from the definition of an occurrence: the indices `i` with
`s[i .. i+|pat|) = pat`. -/
def occurrences (s pat : Str) : List Nat :=
  (List.range (s.length + 1)).filter (fun i => decide ((s.drop i).take pat.length = pat))

end RandomGenerator2

/-!
# Verification of `util/graphMaker.cpp`

The program builds the adjacency lists `edge` of a 36-node grid graph and
prints it.  `int` values are modelled in `Int`; the operator `%` of C++
truncates toward zero and is `Int.tmod`.  An index into `edge[105]` outside
`0 ≤ i < 105` is modelled as failure (`none`).
-/

namespace GraphMaker

/-- The constant `N`. -/
def N : Int := 6

/-- The function `ubah`: `a %= N; b %= N; return a * N + b + 1;`. -/
def ubah (a b : Int) : Int :=
  Int.tmod a N * N + Int.tmod b N + 1

/-- The global `vector <int> edge[105]`. -/
abbrev Edges := List (List Int)

/-- The statement `edge[u].pb(v)`. -/
def pushEdge (edge : Edges) (u v : Int) : Option Edges :=
  if 0 ≤ u ∧ u.toNat < edge.length then
    some (List.modify (fun l => l ++ [v]) u.toNat edge)
  else none

/-- The body of the double loop of `main` at `(i, j)`. -/
def body (edge : Edges) (i j : Int) : Option Edges := do
  let u := ubah i j
  let e ← pushEdge edge u (ubah (i + 1) j)
  pushEdge e (ubah i (j + 1)) u

/-- The inner loop `rep(j,0,N)` with `k` iterations left. -/
def innerLoop (i : Int) : Nat → Int → Edges → Option Edges
  | 0, _, edge => some edge
  | k + 1, j, edge => do
    let e ← body edge i j
    innerLoop i k (j + 1) e

/-- The outer loop `rep(i,0,N)` with `k` iterations left. -/
def outerLoop : Nat → Int → Edges → Option Edges
  | 0, _, edge => some edge
  | k + 1, i, edge => do
    let e ← innerLoop i N.toNat 0 edge
    outerLoop k (i + 1) e

/-- The array `edge` after the double loop of `main`. -/
def buildEdges : Option Edges :=
  outerLoop N.toNat 0 (List.replicate 105 [])

/-- A printed line `u v w`: an edge from `u` to `v` of weight `w`. -/
abbrev Line := Int × Int × Int

/-- The loop `for(int i = 1;i <= N * N;i++) trav(cur, edge[i])` printing
`i cur 1`, with `k` iterations left. -/
def edgeLines (edge : Edges) : Nat → Int → Option (List Line)
  | 0, _ => some []
  | k + 1, i => do
    let l ← if 0 ≤ i then edge[i.toNat]? else none
    let rest ← edgeLines edge k (i + 1)
    some (l.map (fun cur => (i, cur, 1)) ++ rest)

/-- The loop `for(int i = 1;i <= N * N;i++)` printing `i i 0`, with `k`
iterations left. -/
def loopLines : Nat → Int → List Line
  | 0, _ => []
  | k + 1, i => (i, i, 0) :: loopLines k (i + 1)

/-- The output of `main`: the number printed first, then the edge lines. -/
def main : Option (Int × List Line) := do
  let edge ← buildEdges
  let ls ← edgeLines edge (N * N).toNat 1
  some (N * N, ls ++ loopLines (N * N).toNat 1)

/-- The targets of the weight-1 lines with source `u`, in printing order. -/
def outTargets (ls : List Line) (u : Int) : List Int :=
  (ls.filter (fun l => decide (l.1 = u ∧ l.2.2 = 1))).map (fun l => l.2.1)

/-- The edge lines printed by `main` (empty if `main` fails). -/
def mainLines : List Line :=
  match main with
  | some r => r.2
  | none => []

end GraphMaker

/-! # Theorems -/

namespace RandomGenerator2


/-! ## Borders -/

theorem Border.trans {s : Str} {m g k : Nat} (h1 : Border s m g) (h2 : Border s g k) :
    Border s m k := by
  refine ⟨lt_trans h2.1 h1.1, fun j hj => ?_⟩
  have h3 := h2.2 j hj
  have h4 := h1.2 (g - k + j) (by have := h2.1; omega)
  have e : m - g + (g - k + j) = m - k + j := by
    have := h2.1; have := h1.1; omega
  rw [h3, h4, e]

theorem Border.restrict {s : Str} {m g k : Nat} (h1 : Border s m g) (h2 : Border s m k)
    (hk : k < g) : Border s g k := by
  refine ⟨hk, fun j hj => ?_⟩
  have h3 := h2.2 j hj
  have h4 := h1.2 (g - k + j) (by omega)
  have e : m - g + (g - k + j) = m - k + j := by
    have := h1.1; omega
  rw [h3, h4, e]

theorem Border.extend {s : Str} {i g : Nat} (h : Border s i g) (hc : s[g]? = s[i]?) :
    Border s (i + 1) (g + 1) := by
  refine ⟨by have := h.1; omega, fun j hj => ?_⟩
  have e : i + 1 - (g + 1) + j = i - g + j := by omega
  rw [e]
  rcases Nat.lt_succ_iff_lt_or_eq.mp hj with hlt | heq
  · exact h.2 j hlt
  · subst heq
    have e2 : i - j + j = i := by have := h.1; omega
    rw [e2]; exact hc

theorem Border.retract {s : Str} {i k : Nat} (h : Border s (i + 1) (k + 1)) :
    Border s i k ∧ s[k]? = s[i]? := by
  have hk : k < i := by have := h.1; omega
  refine ⟨⟨hk, fun j hj => ?_⟩, ?_⟩
  · have := h.2 j (by omega)
    have e : i + 1 - (k + 1) + j = i - k + j := by omega
    rw [e] at this; exact this
  · have := h.2 k (by omega)
    have e : i + 1 - (k + 1) + k = i := by omega
    rw [e] at this; exact this

theorem border_zero (s : Str) {m : Nat} (hm : 0 < m) : Border s m 0 :=
  ⟨hm, fun _ hj => absurd hj (Nat.not_lt_zero _)⟩

theorem piWhile_spec (s : Str) (p : List Nat) (i : Nat) (hi : i < s.length)
    (hp : TableOk s p i) :
    ∀ fuel g, g < fuel → Border s i g →
      (∀ k, Border s i k → g < k → s[k]? ≠ s[i]?) →
      ∃ g', piWhile s p i fuel g = some g' ∧ Border s i g' ∧
        (∀ k, Border s i k → g' < k → s[k]? ≠ s[i]?) ∧ (g' = 0 ∨ s[g']? = s[i]?) := by
  intro fuel
  induction fuel with
  | zero => intro g hg; omega
  | succ fuel ih =>
    intro g hg hb hmax
    by_cases hg0 : g = 0
    · subst hg0
      exact ⟨0, by simp [piWhile], hb, hmax, Or.inl rfl⟩
    · have hgi : g < i := hb.1
      have hsi : s[i]? = some s[i] := List.getElem?_eq_getElem hi
      have hsg : s[g]? = some (s[g]) := List.getElem?_eq_getElem (by omega)
      by_cases hc : s[i] = s[g]
      · refine ⟨g, ?_, hb, hmax, Or.inr ?_⟩
        · simp [piWhile, hg0, hsi, hsg, hc]
        · rw [hsi, hsg, hc]
      · obtain ⟨v, hv, hvb, hvmax⟩ := hp (g - 1) (by omega)
        have e : g - 1 + 1 = g := by omega
        rw [e] at hvb hvmax
        have hvg : v < g := hvb.1
        obtain ⟨g', h1, h2, h3, h4⟩ := ih v (by omega) (hb.trans hvb) (by
          intro k hk hvk
          rcases lt_trichotomy k g with hlt | heq | hgt
          · have := hvmax k (hb.restrict hk hlt); omega
          · subst heq; rw [hsi, hsg]; intro h; exact hc (Option.some.inj h).symm
          · exact hmax k hk hgt)
        refine ⟨g', ?_, h2, h3, h4⟩
        simp [piWhile, hg0, hsi, hsg, hc, hv, h1]

theorem piLoop_spec (s : Str) :
    ∀ k i p, 1 ≤ i → i + k = s.length → p.length = s.length → TableOk s p i →
      ∃ p', piLoop s k i p = some p' ∧ p'.length = s.length ∧ TableOk s p' s.length := by
  intro k
  induction k with
  | zero =>
    intro i p _ hik hlen hp
    have : i = s.length := by omega
    subst this
    exact ⟨p, by simp [piLoop], hlen, hp⟩
  | succ k ih =>
    intro i p h1 hik hlen hp
    have hi : i < s.length := by omega
    obtain ⟨g0, hg0, hg0b, hg0max⟩ := hp (i - 1) (by omega)
    have e : i - 1 + 1 = i := by omega
    rw [e] at hg0b hg0max
    obtain ⟨g, hw, hgb, hgmax, hgex⟩ := piWhile_spec s p i hi hp s.length g0
      (by have := hg0b.1; omega) hg0b
      (fun k hk hlt => by have := hg0max k hk; omega)
    have hgi : g < i := hgb.1
    have hsi : s[i]? = some s[i] := List.getElem?_eq_getElem hi
    have hsg : s[g]? = some (s[g]) := List.getElem?_eq_getElem (by omega)
    obtain ⟨p', hp', hlen', hok⟩ := ih (i + 1)
      (p.set i (g + if s[i] = s[g] then 1 else 0)) (by omega) (by omega)
      (by simp [hlen]) (by
        intro j hj
        rcases Nat.lt_succ_iff_lt_or_eq.mp hj with hlt | heq
        · obtain ⟨v, hv, hvb⟩ := hp j hlt
          refine ⟨v, ?_, hvb⟩
          rw [List.getElem?_set, if_neg (by omega)]; exact hv
        · subst heq
          refine ⟨_, by rw [List.getElem?_set, if_pos rfl, if_pos (by omega)], ?_⟩
          by_cases hc : s[j] = s[g]
          · rw [if_pos hc]
            refine ⟨hgb.extend (by rw [hsi, hsg, hc]), fun k hk => ?_⟩
            cases k with
            | zero => omega
            | succ k =>
              obtain ⟨hkb, hkc⟩ := hk.retract
              by_contra hcon
              exact hgmax k hkb (by omega) hkc
          · rw [if_neg hc]
            have hg0' : g = 0 := by
              rcases hgex with h | h
              · exact h
              · rw [hsi, hsg] at h; exact absurd (Option.some.inj h).symm hc
            subst hg0'
            refine ⟨border_zero s (by omega), fun k hk => ?_⟩
            cases k with
            | zero => omega
            | succ k =>
              obtain ⟨hkb, hkc⟩ := hk.retract
              exfalso
              cases k with
              | zero => rw [hsi, hsg] at hkc; exact hc (Option.some.inj hkc).symm
              | succ k => exact hgmax _ hkb (by omega) hkc)
    refine ⟨p', ?_, hlen', hok⟩
    simp [piLoop, hg0, hw, hsi, hsg, hlen, hi, hp']

/-- Total correctness of `pi`: it returns a table of the length of `s` whose
entry `j` is the length of the longest proper border of `s[0..j]`. -/
theorem pi_spec (s : Str) :
    ∃ p, pi s = some p ∧ p.length = s.length ∧ TableOk s p s.length := by
  by_cases hs : s.length = 0
  · refine ⟨[], ?_, by simp [hs], fun j hj => by omega⟩
    simp [pi, hs, piLoop]
  · apply piLoop_spec s (s.length - 1) 1 (List.replicate s.length 0) le_rfl (by omega) (by simp)
    intro j hj
    have : j = 0 := by omega
    subst this
    refine ⟨0, by rw [List.getElem?_replicate, if_pos (Nat.pos_of_ne_zero hs)], border_zero s (by omega), fun k hk => ?_⟩
    have := hk.1; omega


/-! ## The text `pat + '\0' + s` -/

theorem text_get_pat (pat s : Str) {j : Nat} (hj : j < pat.length) :
    (pat ++ [sep] ++ s)[j]? = pat[j]? := by
  rw [List.append_assoc, List.getElem?_append_left hj]

theorem text_get_sep (pat s : Str) : (pat ++ [sep] ++ s)[pat.length]? = some sep := by
  rw [List.append_assoc, List.getElem?_append_right le_rfl]
  simp

theorem text_get_s (pat s : Str) (j : Nat) :
    (pat ++ [sep] ++ s)[pat.length + 1 + j]? = s[j]? := by
  rw [List.getElem?_append_right (by simp)]
  congr 1
  simp

theorem text_length (pat s : Str) : (pat ++ [sep] ++ s).length = pat.length + 1 + s.length := by
  simp only [List.length_append, List.length_singleton]

/-- A table entry at a text position equals `|pat|` exactly when an occurrence
of `pat` in `s` ends there. -/
theorem maxBorder_eq_patLen_iff (s pat : Str) (hpat : pat ≠ []) (hs : sep ∉ s) (hp : sep ∉ pat)
    {x v : Nat} (hx1 : pat.length + 1 ≤ x) (hx2 : x < pat.length + 1 + s.length)
    (hv : IsMaxBorder (pat ++ [sep] ++ s) (x + 1) v) :
    v = pat.length ↔
      2 * pat.length ≤ x ∧ ∀ j, j < pat.length → s[x - 2 * pat.length + j]? = pat[j]? := by
  have hm : 0 < pat.length := List.length_pos.mpr hpat
  constructor
  · intro hvm
    subst hvm
    have hb := hv.1
    have h2m : 2 * pat.length ≤ x := by
      by_contra hcon
      have hj0 : 2 * pat.length - x - 1 < pat.length := by omega
      have h := hb.2 _ hj0
      have e : x + 1 - pat.length + (2 * pat.length - x - 1) = pat.length := by omega
      rw [e, text_get_pat pat s hj0, text_get_sep, List.getElem?_eq_getElem hj0] at h
      exact hp (by rw [← Option.some.inj h]; exact List.getElem_mem _)
    refine ⟨h2m, fun j hj => ?_⟩
    have h := hb.2 j hj
    have e : x + 1 - pat.length + j = pat.length + 1 + (x - 2 * pat.length + j) := by omega
    rw [e, text_get_pat pat s hj, text_get_s] at h
    exact h.symm
  · rintro ⟨h2m, hocc⟩
    have hb : Border (pat ++ [sep] ++ s) (x + 1) pat.length := by
      refine ⟨by omega, fun j hj => ?_⟩
      have e : x + 1 - pat.length + j = pat.length + 1 + (x - 2 * pat.length + j) := by omega
      rw [e, text_get_pat pat s hj, text_get_s]
      exact (hocc j hj).symm
    have hle := hv.2 _ hb
    by_contra hne
    have hlt : pat.length < v := by omega
    have hvx : v < x + 1 := hv.1.1
    have h := hv.1.2 _ hlt
    have e : x + 1 - v + pat.length = pat.length + 1 + (x - v) := by omega
    have hxv : x - v < s.length := by omega
    rw [e, text_get_sep, text_get_s, List.getElem?_eq_getElem hxv] at h
    exact hs (by rw [Option.some.inj h]; exact List.getElem_mem _)

/-- The loop of `match` appends, in order, `i - 2 * patLen` for every scanned
index `i` whose table entry is `patLen`. -/
theorem matchLoop_eq (p : List Nat) (m : Nat) :
    ∀ k i res, i + k ≤ p.length →
      matchLoop p m k i res = some (res ++
        ((List.range' i k).filter (fun x => decide (p[x]? = some m))).map
          (fun (x : Nat) => (x : Int) - 2 * (m : Int))) := by
  intro k
  induction k with
  | zero => intro i res _; simp [matchLoop]
  | succ k ih =>
    intro i res h
    have hi : i < p.length := by omega
    have hpi : p[i]? = some p[i] := List.getElem?_eq_getElem hi
    rw [matchLoop, hpi]
    simp only [Option.bind_eq_bind, Option.some_bind]
    rw [ih (i + 1) _ (by omega), List.range'_succ, List.filter_cons]
    by_cases hc : p[i] = m
    · simp [hpi, hc]
    · simp [hpi, hc]

theorem match_eq (s pat : Str) :
    ∃ p, pi (pat ++ [sep] ++ s) = some p ∧ p.length = pat.length + 1 + s.length ∧
      TableOk (pat ++ [sep] ++ s) p (pat.length + 1 + s.length) ∧
      match_ s pat = some
        (((List.range' (pat.length + 1) s.length).filter
          (fun x => decide (p[x]? = some pat.length))).map
          (fun (x : Nat) => (x : Int) - 2 * (pat.length : Int))) := by
  obtain ⟨p, hp, hlen, hok⟩ := pi_spec (pat ++ [sep] ++ s)
  rw [text_length] at hlen hok
  refine ⟨p, hp, hlen, hok, ?_⟩
  have e1 : p.length - s.length = pat.length + 1 := by omega
  have e2 : p.length - (pat.length + 1) = s.length := by omega
  simp only [match_, hp, Option.bind_eq_bind, Option.some_bind, e1, e2]
  rw [matchLoop_eq p pat.length s.length (pat.length + 1) [] (by omega)]
  simp

theorem take_drop_eq_iff (s pat : Str) (a : Nat) :
    (s.drop a).take pat.length = pat ↔ ∀ j, j < pat.length → s[a + j]? = pat[j]? := by
  constructor
  · intro h j hj
    have : ((s.drop a).take pat.length)[j]? = pat[j]? := by rw [h]
    rw [List.getElem?_take_of_lt hj, List.getElem?_drop] at this
    exact this
  · intro h
    apply List.ext_getElem?
    intro j
    by_cases hj : j < pat.length
    · rw [List.getElem?_take_of_lt hj, List.getElem?_drop]; exact h j hj
    · rw [List.getElem?_eq_none (by simp; omega), List.getElem?_eq_none (by omega)]


/-- The list returned by `match` for a non-empty pattern: strictly increasing,
with exactly the occurrence starts as elements. -/
theorem match_mem_sorted (s pat : Str) (hpat : pat ≠ []) (hs : sep ∉ s) (hp : sep ∉ pat) :
    ∃ res, match_ s pat = some res ∧ res.Sorted (· < ·) ∧
      ∀ i : Int, i ∈ res ↔
        (0 ≤ i ∧ i + (pat.length : Int) ≤ (s.length : Int) ∧
          (s.drop i.toNat).take pat.length = pat) := by
  obtain ⟨p, _, _, hok, hm⟩ := match_eq s pat
  refine ⟨_, hm, ?_, ?_⟩
  · rw [List.Sorted, List.pairwise_map]
    refine List.Pairwise.imp ?_ (List.Pairwise.filter _ (List.pairwise_lt_range' _ _))
    intro a b hab
    omega
  · intro i
    simp only [List.mem_map, List.mem_filter, List.mem_range', decide_eq_true_eq]
    constructor
    · rintro ⟨x, ⟨⟨k, hk, rfl⟩, hpx⟩, rfl⟩
      obtain ⟨v, hv, hvb⟩ := hok (pat.length + 1 + 1 * k) (by omega)
      rw [hpx] at hv
      have hv' := Option.some.inj hv
      subst hv'
      obtain ⟨h2m, hocc⟩ := (maxBorder_eq_patLen_iff s pat hpat hs hp (by omega) (by omega) hvb).mp rfl
      refine ⟨by omega, by omega, ?_⟩
      have e : ((↑(pat.length + 1 + 1 * k) : Int) - 2 * (pat.length : Int)).toNat
          = pat.length + 1 + 1 * k - 2 * pat.length := by omega
      rw [e]
      exact (take_drop_eq_iff s pat _).mpr hocc
    · rintro ⟨h0, hle, hocc⟩
      obtain ⟨a, rfl⟩ := Int.eq_ofNat_of_zero_le h0
      rw [Int.toNat_ofNat] at hocc
      have hm : 0 < pat.length := List.length_pos.mpr hpat
      have hx1 : pat.length + 1 ≤ a + 2 * pat.length := by omega
      have hx2 : a + 2 * pat.length < pat.length + 1 + s.length := by omega
      obtain ⟨v, hv, hvb⟩ := hok (a + 2 * pat.length) hx2
      have hvm : v = pat.length := by
        refine (maxBorder_eq_patLen_iff s pat hpat hs hp hx1 hx2 hvb).mpr ⟨by omega, ?_⟩
        have e : a + 2 * pat.length - 2 * pat.length = a := by omega
        rw [e]
        exact (take_drop_eq_iff s pat a).mp hocc
      subst hvm
      refine ⟨a + 2 * pat.length, ⟨⟨a + pat.length - 1, by omega, by omega⟩, hv⟩, by omega⟩

/-- C1. For a non-empty pattern, with the separator occurring neither in the
text nor in the pattern, `match(s, pat)` returns the strictly increasing list
of exactly the start indices `i` with `0 ≤ i`, `i + |pat| ≤ |s|` and
`s[i .. i+|pat|) = pat` (overlapping occurrences included). -/
theorem match_spec (s pat : Str) (hpat : pat ≠ []) (hs : sep ∉ s) (hp : sep ∉ pat) :
    ∃ res, match_ s pat = some res ∧ res.Sorted (· < ·) ∧
      ∀ i : Int, i ∈ res ↔
        (0 ≤ i ∧ i + (pat.length : Int) ≤ (s.length : Int) ∧
          (s.drop i.toNat).take pat.length = pat) :=
  match_mem_sorted s pat hpat hs hp

/-- Witness for C1: `match("aaaa","aa") = [0,1,2]` and `match("abc","x") = []`. -/
theorem match_spec_witness :
    (['a', 'a'] ≠ [] ∧ sep ∉ ['a', 'a', 'a', 'a'] ∧ sep ∉ ['a', 'a']) ∧
    match_ ['a', 'a', 'a', 'a'] ['a', 'a'] = some [0, 1, 2] ∧
    match_ ['a', 'b', 'c'] ['x'] = some [] ∧
    ∃ res, match_ ['a', 'a', 'a', 'a'] ['a', 'a'] = some res ∧ res.Sorted (· < ·) ∧
      ∀ i : Int, i ∈ res ↔
        (0 ≤ i ∧ i + ((['a', 'a'] : Str).length : Int) ≤ ((['a', 'a', 'a', 'a'] : Str).length : Int) ∧
          (List.drop i.toNat ['a', 'a', 'a', 'a']).take (['a', 'a'] : Str).length = ['a', 'a']) :=
  ⟨⟨by decide, by decide, by decide⟩, by decide, by decide,
    match_spec ['a', 'a', 'a', 'a'] ['a', 'a'] (by decide) (by decide) (by decide)⟩

/-! ## The order `cmp` -/

theorem strLt_irrefl : ∀ a : Str, strLt a a = false
  | [] => rfl
  | c :: cs => by simp [strLt, strLt_irrefl cs]

theorem strLt_asymm : ∀ a b : Str, strLt a b = true → strLt b a = false
  | _, [] => by simp [strLt]
  | [], _ :: _ => by simp [strLt]
  | c :: cs, d :: ds => by
    intro h
    rcases lt_trichotomy c d with hlt | heq | hgt
    · simp [strLt, hlt, not_lt_of_gt hlt]
    · subst heq
      simp only [strLt, lt_irrefl, if_false] at h ⊢
      exact strLt_asymm cs ds h
    · simp [strLt, hgt, not_lt_of_gt hgt] at h

theorem strLt_trans : ∀ a b c : Str, strLt a b = true → strLt b c = true → strLt a c = true
  | _, _, [] => by simp [strLt]
  | _, [], _ :: _ => by simp [strLt]
  | [], _ :: _, _ :: _ => by simp [strLt]
  | x :: xs, y :: ys, z :: zs => by
    intro h1 h2
    rcases lt_trichotomy x y with hxy | hxy | hxy
    · rcases lt_trichotomy y z with hyz | hyz | hyz
      · simp [strLt, lt_trans hxy hyz]
      · subst hyz; simp [strLt, hxy]
      · simp [strLt, hyz, not_lt_of_gt hyz] at h2
    · subst hxy
      rcases lt_trichotomy x z with hyz | hyz | hyz
      · simp [strLt, hyz]
      · subst hyz
        simp only [strLt, lt_irrefl, if_false] at h1 h2 ⊢
        exact strLt_trans xs ys zs h1 h2
      · simp [strLt, hyz, not_lt_of_gt hyz] at h2
    · simp [strLt, hxy, not_lt_of_gt hxy] at h1

theorem strLt_connex : ∀ a b : Str, strLt a b = false → strLt b a = false → a = b
  | [], [] => fun _ _ => rfl
  | [], _ :: _ => by simp [strLt]
  | _ :: _, [] => by simp [strLt]
  | c :: cs, d :: ds => by
    intro h1 h2
    rcases lt_trichotomy c d with hlt | heq | hgt
    · simp [strLt, hlt] at h1
    · subst heq
      simp only [strLt, lt_irrefl, if_false] at h1 h2
      rw [strLt_connex cs ds h1 h2]
    · simp [strLt, hgt] at h2

theorem cmp_irrefl (a : Str) : cmp a a = false := by
  simp [cmp, strLt_irrefl]

theorem cmp_asymm {a b : Str} (h : cmp a b = true) : cmp b a = false := by
  unfold cmp at h ⊢
  by_cases hl : a.length = b.length
  · rw [if_neg (by simpa using hl)] at h
    rw [if_neg (by simpa using hl.symm)]
    exact strLt_asymm a b h
  · rw [if_pos hl] at h
    rw [if_pos (fun e => hl e.symm)]
    have := of_decide_eq_true h
    exact decide_eq_false (by omega)

theorem cmp_trans {a b c : Str} (h1 : cmp a b = true) (h2 : cmp b c = true) :
    cmp a c = true := by
  unfold cmp at h1 h2 ⊢
  by_cases hab : a.length = b.length
  · rw [if_neg (by simpa using hab)] at h1
    by_cases hbc : b.length = c.length
    · rw [if_neg (by simpa using hbc)] at h2
      rw [if_neg (by simpa using hab.trans hbc)]
      exact strLt_trans a b c h1 h2
    · rw [if_pos hbc] at h2
      have := of_decide_eq_true h2
      rw [if_pos (by omega)]
      exact decide_eq_true (by omega)
  · rw [if_pos hab] at h1
    have h1' := of_decide_eq_true h1
    by_cases hbc : b.length = c.length
    · rw [if_pos (by omega)]
      exact decide_eq_true (by omega)
    · rw [if_pos hbc] at h2
      have := of_decide_eq_true h2
      rw [if_pos (by omega)]
      exact decide_eq_true (by omega)

theorem cmp_connex {a b : Str} (h1 : cmp a b = false) (h2 : cmp b a = false) : a = b := by
  unfold cmp at h1 h2
  by_cases hl : a.length = b.length
  · rw [if_neg (by simpa using hl)] at h1
    rw [if_neg (by simpa using hl.symm)] at h2
    exact strLt_connex a b h1 h2
  · rw [if_pos hl] at h1
    rw [if_pos (fun e => hl e.symm)] at h2
    have := of_decide_eq_false h1
    have := of_decide_eq_false h2
    omega

theorem cmpLe_total (a b : Str) : cmp b a = false ∨ cmp a b = false := by
  by_cases h : cmp b a = true
  · exact Or.inr (cmp_asymm h)
  · exact Or.inl (by simpa using h)

theorem cmpLe_trans {a b c : Str} (h1 : cmp b a = false) (h2 : cmp c b = false) :
    cmp c a = false := by
  by_contra h
  have hca : cmp c a = true := by simpa using h
  by_cases hab : cmp a b = true
  · rw [cmp_trans hca hab] at h2; exact Bool.noConfusion h2
  · have : a = b := cmp_connex (by simpa using hab) h1
    subst this
    rw [hca] at h2; exact Bool.noConfusion h2

/-! ## `cmp` and the lexicographic order -/

theorem strLt_iff_lex : ∀ a b : Str, strLt a b = true ↔ List.Lex (· < ·) a b
  | _, [] => by
    simp only [strLt]
    constructor
    · intro h; exact Bool.noConfusion h
    · intro h; cases h
  | [], _ :: _ => by
    simp only [strLt, true_iff]
    exact List.Lex.nil
  | c :: cs, d :: ds => by
    simp only [strLt]
    by_cases h1 : c < d
    · simp only [h1, if_true, true_iff]
      exact List.Lex.rel h1
    · by_cases h2 : d < c
      · simp only [h1, h2, if_true, if_false]
        constructor
        · intro h; exact Bool.noConfusion h
        · intro h
          cases h with
          | cons _ => exact absurd h2 (lt_irrefl _)
          | rel h => exact absurd h h1
      · have hcd : c = d := le_antisymm (not_lt.mp h2) (not_lt.mp h1)
        subst hcd
        simp only [lt_irrefl, if_false]
        rw [strLt_iff_lex cs ds]
        constructor
        · intro h; exact List.Lex.cons h
        · intro h
          cases h with
          | cons h => exact h
          | rel h => exact absurd h (lt_irrefl _)

/-- The function `cmp` is the (length, then lexicographic) order. -/
theorem cmp_iff (a b : Str) : cmp a b = true ↔ LengthLex a b := by
  unfold cmp LengthLex
  by_cases hl : a.length = b.length
  · rw [if_neg (by simpa using hl), strLt_iff_lex]
    constructor
    · intro h; exact Or.inr ⟨hl, h⟩
    · rintro (h | h)
      · omega
      · exact h.2
  · rw [if_pos hl, decide_eq_true_iff]
    constructor
    · intro h; exact Or.inl h
    · rintro (h | h)
      · exact h
      · exact absurd h.1 hl

theorem sorted_lengthLex {l : List Str} (h : l.Sorted (fun a b => cmp a b = true)) :
    l.Sorted LengthLex :=
  List.Pairwise.imp (fun hab => (cmp_iff _ _).mp hab) h

/-! ## `sort`, `unique`, `uniquize` -/

theorem sort_sorted (l : List Str) : (sort l).Sorted (fun a b => cmp b a = false) := by
  haveI : IsTotal Str (fun a b => cmp b a = false) := ⟨cmpLe_total⟩
  haveI : IsTrans Str (fun a b => cmp b a = false) := ⟨fun _ _ _ => cmpLe_trans⟩
  exact List.sorted_insertionSort _ l

theorem mem_sort {l : List Str} {x : Str} : x ∈ sort l ↔ x ∈ l :=
  List.mem_insertionSort _

theorem mem_uniqueFrom_imp {x : Str} : ∀ (l : List Str) (prev : Str), x ∈ uniqueFrom prev l → x ∈ l
  | [], _ => by simp [uniqueFrom]
  | b :: t, prev => by
    intro h
    unfold uniqueFrom at h
    split at h
    · exact List.mem_cons_of_mem _ (mem_uniqueFrom_imp t prev h)
    · rcases List.mem_cons.mp h with h | h
      · exact h ▸ List.mem_cons_self _ _
      · exact List.mem_cons_of_mem _ (mem_uniqueFrom_imp t b h)

theorem mem_uniqueFrom_of_mem {x : Str} :
    ∀ (l : List Str) (prev : Str), x ∈ l → x = prev ∨ x ∈ uniqueFrom prev l
  | [], _ => by simp
  | b :: t, prev => by
    intro h
    unfold uniqueFrom
    split
    · next hpb =>
      rcases List.mem_cons.mp h with h | h
      · exact Or.inl (h.trans hpb.symm)
      · exact mem_uniqueFrom_of_mem t prev h
    · rcases List.mem_cons.mp h with h | h
      · exact Or.inr (h ▸ List.mem_cons_self _ _)
      · rcases mem_uniqueFrom_of_mem t b h with h | h
        · exact Or.inr (h ▸ List.mem_cons_self _ _)
        · exact Or.inr (List.mem_cons_of_mem _ h)

theorem mem_unique {x : Str} : ∀ {l : List Str}, x ∈ unique l ↔ x ∈ l
  | [] => by simp [unique]
  | a :: t => by
    simp only [unique, List.mem_cons]
    constructor
    · rintro (h | h)
      · exact Or.inl h
      · exact Or.inr (mem_uniqueFrom_imp t a h)
    · rintro (h | h)
      · exact Or.inl h
      · exact mem_uniqueFrom_of_mem t a h

theorem uniqueFrom_sorted :
    ∀ (l : List Str) (prev : Str), (prev :: l).Sorted (fun a b => cmp b a = false) →
      (prev :: uniqueFrom prev l).Sorted (fun a b => cmp a b = true)
  | [], _ => by simp [uniqueFrom]
  | b :: t, prev => by
    intro h
    have hpt : (prev :: t).Sorted (fun a b => cmp b a = false) := by
      rw [List.Sorted, List.pairwise_cons] at h ⊢
      exact ⟨fun x hx => h.1 x (List.mem_cons_of_mem _ hx), (List.pairwise_cons.mp h.2).2⟩
    have hbt : (b :: t).Sorted (fun a b => cmp b a = false) := h.of_cons
    unfold uniqueFrom
    split
    · exact uniqueFrom_sorted t prev hpt
    · next hne =>
      have ih := uniqueFrom_sorted t b hbt
      have hpb : cmp prev b = true := by
        by_contra hc
        exact hne (cmp_connex (by simpa using hc) (List.rel_of_sorted_cons h b (List.mem_cons_self _ _)))
      rw [List.Sorted, List.pairwise_cons]
      refine ⟨fun x hx => ?_, ih⟩
      rcases List.mem_cons.mp hx with hx | hx
      · rw [hx]; exact hpb
      · exact cmp_trans hpb (List.rel_of_sorted_cons ih x hx)

theorem unique_sorted : ∀ (l : List Str), l.Sorted (fun a b => cmp b a = false) →
    (unique l).Sorted (fun a b => cmp a b = true)
  | [], _ => by simp [unique]
  | a :: t, h => uniqueFrom_sorted t a h

/-- The list returned by `uniquize` is strictly increasing under `cmp`. -/
theorem uniquize_sorted (l : List Str) : (uniquize l).Sorted (fun a b => cmp a b = true) :=
  unique_sorted _ (sort_sorted l)

/-- The function `uniquize` neither loses nor adds a string. -/
theorem mem_uniquize {l : List Str} {x : Str} : x ∈ uniquize l ↔ x ∈ l := by
  rw [uniquize, mem_unique, mem_sort]

theorem sorted_cmp_nodup {l : List Str} (h : l.Sorted (fun a b => cmp a b = true)) : l.Nodup := by
  haveI : IsIrrefl Str (fun a b => cmp a b = true) := ⟨fun a h => by rw [cmp_irrefl] at h; exact Bool.noConfusion h⟩
  exact h.nodup

/-- A list that is strictly increasing under `cmp` is determined by its elements. -/
theorem sorted_cmp_ext {l₁ l₂ : List Str} (h₁ : l₁.Sorted (fun a b => cmp a b = true))
    (h₂ : l₂.Sorted (fun a b => cmp a b = true)) (h : ∀ x, x ∈ l₁ ↔ x ∈ l₂) : l₁ = l₂ := by
  haveI : IsAntisymm Str (fun a b => cmp a b = true) :=
    ⟨fun a b hab hba => by rw [cmp_asymm hab] at hba; exact Bool.noConfusion hba⟩
  exact List.eq_of_perm_of_sorted
    ((List.perm_ext_iff_of_nodup (sorted_cmp_nodup h₁) (sorted_cmp_nodup h₂)).mpr h) h₁ h₂

theorem uniquize_eq_self {l : List Str} (h : l.Sorted (fun a b => cmp a b = true)) :
    uniquize l = l :=
  sorted_cmp_ext (uniquize_sorted l) h (fun _ => mem_uniquize)

/-! ## `concat` -/

/-- C3. For all lists `A` and `B`, `concat(A, B)` contains no duplicate string
and is strictly increasing under `cmp`, that is, sorted by (length, then
lexicographic) order. -/
theorem concat_nodup_sorted (A B : List Str) :
    (concat A B).Nodup ∧ (concat A B).Sorted (fun a b => cmp a b = true) ∧
    (concat A B).Sorted LengthLex :=
  ⟨sorted_cmp_nodup (uniquize_sorted _), uniquize_sorted _,
    sorted_lengthLex (uniquize_sorted _)⟩

theorem mem_concat (A B : List Str) (s : Str) :
    s ∈ concat A B ↔ ∃ a, a ∈ A ∧ ∃ b, b ∈ B ∧ s = a ++ b := by
  rw [concat, mem_uniquize, List.mem_flatMap]
  constructor
  · rintro ⟨a, ha, hs⟩
    obtain ⟨b, hb, rfl⟩ := List.mem_map.mp hs
    exact ⟨a, ha, b, hb, rfl⟩
  · rintro ⟨a, ha, b, hb, rfl⟩
    exact ⟨a, ha, List.mem_map.mpr ⟨b, hb, rfl⟩⟩

/-- C4. A string is an element of `concat(A, B)` exactly when it is `a + b`
for some `a` in `A` and some `b` in `B`: deduplication loses nothing and
nothing is added. -/
theorem concat_elements (A B : List Str) (s : Str) :
    s ∈ concat A B ↔ ∃ a, a ∈ A ∧ ∃ b, b ∈ B ∧ s = a ++ b :=
  mem_concat A B s

/-! ## `power` -/

/-- After `n` iterations `base` holds exactly the concatenations of `n`
elements of `A`. -/
theorem mem_powerLoop_base (A : List Str) (isStar : Bool) :
    ∀ (n : Nat) (s : Str), s ∈ (powerLoop A isStar n).1 ↔
      ∃ l : List Str, l.length = n ∧ (∀ a, a ∈ l → a ∈ A) ∧ s = l.flatten := by
  intro n
  induction n with
  | zero =>
    intro s
    simp only [powerLoop, powerInit, List.mem_singleton]
    constructor
    · rintro rfl
      exact ⟨[], rfl, by simp, rfl⟩
    · rintro ⟨l, hl, -, rfl⟩
      rw [List.length_eq_zero.mp hl]; rfl
  | succ n ih =>
    intro s
    simp only [powerLoop, powerStep]
    rw [mem_concat]
    constructor
    · rintro ⟨a, ha, b, hb, rfl⟩
      obtain ⟨l, hl, hA, rfl⟩ := (ih b).mp hb
      refine ⟨a :: l, by simp [hl], ?_, by simp⟩
      intro x hx
      rcases List.mem_cons.mp hx with h | h
      · exact h ▸ ha
      · exact hA x h
    · rintro ⟨l, hl, hA, rfl⟩
      cases l with
      | nil => simp at hl
      | cons a l =>
        refine ⟨a, hA a (List.mem_cons_self _ _), l.flatten, ?_, by simp⟩
        exact (ih _).mpr ⟨l, by simpa using hl, fun x hx => hA x (List.mem_cons_of_mem _ hx), rfl⟩

/-- After `n` iterations `res` holds exactly the concatenations of at most `n`
elements of `A`. -/
theorem mem_powerLoop_res (A : List Str) (isStar : Bool) :
    ∀ (n : Nat) (s : Str), s ∈ (powerLoop A isStar n).2 ↔
      ∃ l : List Str, l.length ≤ n ∧ (∀ a, a ∈ l → a ∈ A) ∧ s = l.flatten := by
  intro n
  induction n with
  | zero =>
    intro s
    have h0 : s ∈ (powerLoop A isStar 0).2 ↔ s = [] := by
      cases isStar <;> simp [powerLoop, powerInit]
    rw [h0]
    constructor
    · rintro rfl
      exact ⟨[], le_rfl, by simp, rfl⟩
    · rintro ⟨l, hl, -, rfl⟩
      rw [List.length_eq_zero.mp (Nat.le_zero.mp hl)]; rfl
  | succ n ih =>
    intro s
    have hstep : s ∈ (powerLoop A isStar (n + 1)).2 ↔
        s ∈ (powerLoop A isStar n).2 ∨ s ∈ (powerLoop A isStar (n + 1)).1 := by
      simp only [powerLoop, powerStep, List.mem_append]
    rw [hstep, ih, mem_powerLoop_base]
    constructor
    · rintro (⟨l, hl, hA, rfl⟩ | ⟨l, hl, hA, rfl⟩)
      · exact ⟨l, by omega, hA, rfl⟩
      · exact ⟨l, by omega, hA, rfl⟩
    · rintro ⟨l, hl, hA, rfl⟩
      rcases Nat.lt_or_ge l.length (n + 1) with h | h
      · exact Or.inl ⟨l, by omega, hA, rfl⟩
      · exact Or.inr ⟨l, by omega, hA, rfl⟩

/-! ### The `int` counter of the loop of `power` -/

theorem powerLoop_eq_iterate (A : List Str) (isStar : Bool) :
    ∀ n, powerLoop A isStar n = (powerStep A)^[n] (powerInit isStar)
  | 0 => rfl
  | n + 1 => by
    rw [Function.iterate_succ_apply', ← powerLoop_eq_iterate A isStar n]
    rfl

theorem powerLoopInt_some (A : List Str) (expo : Int) (hmax : expo < INT_MAX) :
    ∀ (k fuel : Nat) (i : Int) (st : PowerState), i + (k : Int) = expo + 1 → k < fuel →
      powerLoopInt A expo fuel i st = some ((powerStep A)^[k] st) := by
  intro k
  induction k with
  | zero =>
    intro fuel i st hi hf
    cases fuel with
    | zero => omega
    | succ fuel =>
      rw [powerLoopInt, if_neg (by omega)]
      rfl
  | succ k ih =>
    intro fuel i st hi hf
    cases fuel with
    | zero => omega
    | succ fuel =>
      have hne : ¬ i = INT_MAX := by
        intro h
        rw [h] at hi
        omega
      rw [powerLoopInt, if_pos (by omega), if_neg hne, ih fuel (i + 1) _ (by omega) (by omega),
        Function.iterate_succ_apply]

theorem powerLoopInt_none (A : List Str) (expo : Int) (hmax : INT_MAX ≤ expo) :
    ∀ (fuel : Nat) (i : Int) (st : PowerState), i ≤ INT_MAX →
      powerLoopInt A expo fuel i st = none := by
  intro fuel
  induction fuel with
  | zero => intro i st _; rfl
  | succ fuel ih =>
    intro i st hi
    rw [powerLoopInt, if_pos (le_trans hi hmax)]
    by_cases h : i = INT_MAX
    · rw [if_pos h]
    · rw [if_neg h]
      exact ih (i + 1) _ (by omega)

/-- Below `INT_MAX` the loop of `power` terminates and `power` returns the list
computed by `expo` iterations. -/
theorem powerInt_eq_some (A : List Str) (expo : Int) (isStar : Bool) (hmax : expo < INT_MAX) :
    powerInt A expo isStar = some (power A expo isStar) := by
  unfold powerInt power
  by_cases h0 : 0 ≤ expo
  · rw [powerLoopInt_some A expo hmax expo.toNat _ 1 _ (by omega) (by omega),
      ← powerLoop_eq_iterate]
    rfl
  · have e : expo.toNat = 0 := by omega
    rw [e, powerLoopInt, if_neg (by omega)]
    rfl

/-- At `INT_MAX` the loop of `power` never exits: `power` returns nothing. -/
theorem powerInt_eq_none (A : List Str) (expo : Int) (isStar : Bool) (hmax : INT_MAX ≤ expo) :
    powerInt A expo isStar = none := by
  unfold powerInt
  rw [powerLoopInt_none A expo hmax _ 1 _ (by decide)]
  rfl

/-- C2, as stated, fails at `expo = INT_MAX`: the loop condition `i <= expo`
holds for every `int`, so with `A = {}` the loop reaches `i = INT_MAX`, `i++`
overflows and `power` returns nothing, not even the empty concatenation. -/
theorem power_elements_int_max :
    (0 : Int) ≤ 2147483647 ∧ powerInt [] 2147483647 true = none ∧
    ¬ ∃ res, powerInt [] 2147483647 true = some res ∧ [] ∈ res := by
  have h : powerInt [] 2147483647 true = none := powerInt_eq_none [] _ true (le_refl _)
  refine ⟨by decide, h, ?_⟩
  rintro ⟨res, hres, _⟩
  rw [h] at hres
  exact Option.noConfusion hres

/-- C2, amended. For `0 ≤ expo < INT_MAX`, `power(A, expo)` returns, and a
string is an element of the result exactly when it is the concatenation of `n`
elements of `A`, repetition allowed, for some `0 ≤ n ≤ expo`. -/
theorem power_elements (A : List Str) (expo : Int) (hexpo : 0 ≤ expo) (hmax : expo < INT_MAX)
    (s : Str) :
    powerInt A expo true = some (power A expo true) ∧
    (s ∈ power A expo true ↔
      ∃ l : List Str, (l.length : Int) ≤ expo ∧ (∀ a, a ∈ l → a ∈ A) ∧ s = l.flatten) := by
  refine ⟨powerInt_eq_some A expo true hmax, ?_⟩
  rw [power, mem_uniquize, mem_powerLoop_res]
  constructor
  · rintro ⟨l, hl, hA, rfl⟩
    exact ⟨l, by omega, hA, rfl⟩
  · rintro ⟨l, hl, hA, rfl⟩
    exact ⟨l, by omega, hA, rfl⟩

/-- Witness for C2, amended, at `A = {"0","1"}`, `expo = 2`. -/
theorem power_elements_witness :
    ((0 : Int) ≤ 2 ∧ (2 : Int) < INT_MAX) ∧
    powerInt [['0'], ['1']] 2 true
      = some [[], ['0'], ['1'], ['0', '0'], ['0', '1'], ['1', '0'], ['1', '1']] ∧
    (powerInt [['0'], ['1']] 2 true = some (power [['0'], ['1']] 2 true) ∧
    (['1', '0'] ∈ power [['0'], ['1']] 2 true ↔
      ∃ l : List Str, (l.length : Int) ≤ 2 ∧ (∀ a, a ∈ l → a ∈ [['0'], ['1']]) ∧
        ['1', '0'] = l.flatten)) :=
  ⟨⟨by decide, by decide⟩, by decide,
    power_elements [['0'], ['1']] 2 (by decide) (by decide) ['1', '0']⟩

/-- C5. For every `A`, `expo` and `isStar`, the list returned by
`power(A, expo, isStar)` has no duplicate and is strictly increasing under
`cmp`, that is, sorted by (length, then lexicographic) order, and so is the
intermediate list `base` after any number of loop iterations. -/
theorem power_canonical (A : List Str) (expo : Int) (isStar : Bool) :
    ((power A expo isStar).Nodup ∧ (power A expo isStar).Sorted (fun a b => cmp a b = true) ∧
      (power A expo isStar).Sorted LengthLex) ∧
    ∀ n : Nat, (powerLoop A isStar n).1.Nodup ∧
      (powerLoop A isStar n).1.Sorted (fun a b => cmp a b = true) ∧
      (powerLoop A isStar n).1.Sorted LengthLex := by
  refine ⟨⟨sorted_cmp_nodup (uniquize_sorted _), uniquize_sorted _,
    sorted_lengthLex (uniquize_sorted _)⟩, fun n => ?_⟩
  have h : (powerLoop A isStar n).1.Sorted (fun a b => cmp a b = true) := by
    cases n with
    | zero => simp [powerLoop, powerInit]
    | succ n => exact uniquize_sorted _
  exact ⟨sorted_cmp_nodup h, h, sorted_lengthLex h⟩

/-- C9. For every `A`, `power(A, 0, true)` is the one-element list holding the
empty string, although `res` holds the empty string twice before `uniquize`. -/
theorem power_zero (A : List Str) :
    power A 0 true = [[]] ∧ (powerLoop A true 0).2 = [[], []] ∧
    power [['0'], ['1']] 0 true = [[]] :=
  ⟨rfl, rfl, rfl⟩

/-- C10. For every `A`, `power(A, 1, true)` is the duplicate-free list, sorted
by (length, then lexicographic) order, whose elements are the empty string and
the elements of `A`; it equals `uniquize` of the empty string followed by
`A`. -/
theorem power_one (A : List Str) :
    (power A 1 true).Nodup ∧ (power A 1 true).Sorted LengthLex ∧
    (∀ s, s ∈ power A 1 true ↔ s = [] ∨ s ∈ A) ∧
    power A 1 true = uniquize ([] :: A) ∧
    power [['0'], ['1']] 1 true = [[], ['0'], ['1']] := by
  have hmem : ∀ s, s ∈ power A 1 true ↔ s = [] ∨ s ∈ A := by
    intro s
    have e : power A 1 true = uniquize ([[], []] ++ concat A [[]]) := rfl
    rw [e, mem_uniquize, List.mem_append, mem_concat]
    constructor
    · rintro (h | ⟨a, ha, b, hb, rfl⟩)
      · simp at h; exact Or.inl h
      · rw [List.mem_singleton.mp hb, List.append_nil]; exact Or.inr ha
    · rintro (h | h)
      · exact Or.inl (by simp [h])
      · exact Or.inr ⟨s, h, [], by simp, by simp⟩
  refine ⟨sorted_cmp_nodup (uniquize_sorted _), sorted_lengthLex (uniquize_sorted _), hmem, ?_,
    by decide⟩
  exact sorted_cmp_ext (uniquize_sorted _) (uniquize_sorted _)
    (fun s => by rw [hmem, mem_uniquize, List.mem_cons])

/-! ## The filter loop of `main` -/

theorem filterLoop_true_eq_self :
    ∀ (l : List Str) (cntout : Int), (l.length : Int) ≤ cntout →
      filterLoop (fun _ => true) l cntout = l
  | [], _, _ => rfl
  | cur :: rest, cntout, h => by
    have hlen : ((cur :: rest).length : Int) = (rest.length : Int) + 1 := by simp
    rw [hlen] at h
    simp only [filterLoop, if_true]
    by_cases hc : cntout - 1 ≤ 0
    · rw [if_pos hc]
      have : rest.length = 0 := by omega
      rw [List.length_eq_zero.mp this]
    · rw [if_neg hc, filterLoop_true_eq_self rest (cntout - 1) (by omega)]

/-- C6. With the always-true predicate `isValid` and an output limit that is at
least the number of candidates, the strings printed by the filter loop of
`main` for any base `A` and exponent `k` are exactly `power(A, k)`, every
element once and in the same order. -/
theorem mainWith_isValid_eq_power (A : List Str) (k : Int) (limit : Int)
    (hlimit : ((power A k true).length : Int) ≤ limit) :
    mainWith isValid A k limit = power A k true := by
  have e : uniquize (power A k true) = power A k true := uniquize_eq_self (uniquize_sorted _)
  rw [mainWith, e]
  exact filterLoop_true_eq_self _ _ hlimit

/-- Witness for C6 at `A = {"0","1"}`, `k = 2` and the compiled limit `INF`. -/
theorem mainWith_isValid_eq_power_witness :
    ((power [['0'], ['1']] 2 true).length : Int) ≤ INF ∧
    mainWith isValid [['0'], ['1']] 2 INF = power [['0'], ['1']] 2 true :=
  ⟨by decide, mainWith_isValid_eq_power [['0'], ['1']] 2 INF (by decide)⟩

/-- C7, as stated, fails for the limit `0`: the loop prints a string before it
decrements and tests the counter, so one valid candidate is printed. -/
theorem filterLoop_limit_zero :
    filterLoop (fun _ => true) [[]] 0 = [[]] ∧
    ¬ (((filterLoop (fun _ => true) [[]] 0).length : Int) ≤ 0) :=
  ⟨by decide, by decide⟩

/-- C7, amended. For every candidate list, every validity predicate and every
limit of at least one, the filter loop of `main` prints exactly the first
`min(limit, number of valid candidates)` candidates that satisfy the
predicate, in candidate order; in particular at most `limit` strings. -/
theorem filterLoop_eq_take_filter (valid : Str → Bool) :
    ∀ (cands : List Str) (limit : Int), 1 ≤ limit →
      filterLoop valid cands limit = (cands.filter valid).take limit.toNat ∧
      (filterLoop valid cands limit).length = min limit.toNat (cands.filter valid).length ∧
      ((filterLoop valid cands limit).length : Int) ≤ limit := by
  have key : ∀ (cands : List Str) (limit : Int), 1 ≤ limit →
      filterLoop valid cands limit = (cands.filter valid).take limit.toNat := by
    intro cands
    induction cands with
    | nil => intro limit _; simp [filterLoop]
    | cons cur rest ih =>
      intro limit hl
      by_cases hv : valid cur = true
      · have e : limit.toNat = (limit - 1).toNat + 1 := by omega
        rw [filterLoop, if_pos hv, List.filter_cons_of_pos hv, e, List.take_succ_cons]
        by_cases hc : limit - 1 ≤ 0
        · rw [if_pos hc]
          have : (limit - 1).toNat = 0 := by omega
          rw [this, List.take_zero]
        · rw [if_neg hc, ih (limit - 1) (by omega)]
      · rw [filterLoop, if_neg hv, List.filter_cons_of_neg hv]
        exact ih limit hl
  intro cands limit hl
  have hk := key cands limit hl
  refine ⟨hk, ?_, ?_⟩
  · rw [hk, List.length_take]
  · rw [hk, List.length_take]
    omega

/-- Witness for C7, amended: four candidates, the predicate "contains `1`",
limit `2`. -/
theorem filterLoop_eq_take_filter_witness :
    (1 : Int) ≤ 2 ∧
    filterLoop (containsPat ['1']) [['0'], ['1'], ['0', '1'], ['1', '1']] 2
      = [['1'], ['0', '1']] ∧
    (filterLoop (containsPat ['1']) [['0'], ['1'], ['0', '1'], ['1', '1']] 2
      = (([['0'], ['1'], ['0', '1'], ['1', '1']] : List Str).filter
          (containsPat ['1'])).take (2 : Int).toNat ∧
    (filterLoop (containsPat ['1']) [['0'], ['1'], ['0', '1'], ['1', '1']] 2).length
      = min (2 : Int).toNat
          (([['0'], ['1'], ['0', '1'], ['1', '1']] : List Str).filter
            (containsPat ['1'])).length ∧
    ((filterLoop (containsPat ['1']) [['0'], ['1'], ['0', '1'], ['1', '1']] 2).length : Int)
      ≤ 2) :=
  ⟨by decide, by decide,
    filterLoop_eq_take_filter (containsPat ['1']) [['0'], ['1'], ['0', '1'], ['1', '1']] 2
      (by decide)⟩

/-! ## End-to-end scenario -/

/-- C8, as stated, fails: `power(A, 3)` holds no string of length four, so
`"0011"` is not printed for `maxExponent = 3`. -/
theorem endToEnd_three_lacks_0011 :
    ['0', '0', '1', '1'] ∉ mainWith (containsPat ['0', '1', '1']) [['0'], ['1']] 3 INF := by
  decide

/-- C8, amended. For the alphabet `{"0","1"}` and the predicate "contains
`"011"`": with `maxExponent = 3` the output is exactly `["011"]`, so it
includes `"011"` and neither `"000"` nor `"0101"`; with `maxExponent = 4` the
output is `"011", "0011", "0110", "0111", "1011"` in that order and includes
neither `"000"` nor `"0101"`. -/
theorem endToEnd_output :
    mainWith (containsPat ['0', '1', '1']) [['0'], ['1']] 3 INF = [['0', '1', '1']] ∧
    mainWith (containsPat ['0', '1', '1']) [['0'], ['1']] 4 INF
      = [['0', '1', '1'], ['0', '0', '1', '1'], ['0', '1', '1', '0'], ['0', '1', '1', '1'],
          ['1', '0', '1', '1']] ∧
    ['0', '0', '0'] ∉ mainWith (containsPat ['0', '1', '1']) [['0'], ['1']] 3 INF ∧
    ['0', '1', '0', '1'] ∉ mainWith (containsPat ['0', '1', '1']) [['0'], ['1']] 3 INF ∧
    ['0', '0', '0'] ∉ mainWith (containsPat ['0', '1', '1']) [['0'], ['1']] 4 INF ∧
    ['0', '1', '0', '1'] ∉ mainWith (containsPat ['0', '1', '1']) [['0'], ['1']] 4 INF := by
  have h3 : mainWith (containsPat ['0', '1', '1']) [['0'], ['1']] 3 INF = [['0', '1', '1']] := by
    decide
  have h4 : mainWith (containsPat ['0', '1', '1']) [['0'], ['1']] 4 INF
      = [['0', '1', '1'], ['0', '0', '1', '1'], ['0', '1', '1', '0'], ['0', '1', '1', '1'],
          ['1', '0', '1', '1']] := by
    decide
  refine ⟨h3, h4, ?_, ?_, ?_, ?_⟩
  · rw [h3]; decide
  · rw [h3]; decide
  · rw [h4]; decide
  · rw [h4]; decide

/-! ## `eachPrefix` -/

theorem eachPrefixLoop_iff (valid : Str → Bool) :
    ∀ (rest curpref : Str), eachPrefixLoop valid curpref rest = true ↔
      ∀ n, 1 ≤ n → n ≤ rest.length → valid (curpref ++ rest.take n) = true
  | [], curpref => by
    simp only [eachPrefixLoop, List.length_nil, true_iff]
    intro n h1 h2
    omega
  | ch :: rest, curpref => by
    rw [eachPrefixLoop]
    by_cases hv : valid (curpref ++ [ch]) = true
    · simp only [hv, Bool.not_true, Bool.false_eq_true, if_false]
      rw [eachPrefixLoop_iff valid rest (curpref ++ [ch])]
      constructor
      · intro h n h1 h2
        cases n with
        | zero => omega
        | succ n =>
          cases n with
          | zero => simpa using hv
          | succ n =>
            have := h (n + 1) (by omega) (by simp at h2; omega)
            simpa using this
      · intro h n h1 h2
        have := h (n + 1) (by omega) (by simp; omega)
        simpa using this
    · have hv' : valid (curpref ++ [ch]) = false := by simpa using hv
      simp only [hv', Bool.not_false, if_true]
      constructor
      · intro h; exact Bool.noConfusion h
      · intro h
        have := h 1 le_rfl (by simp)
        rw [List.take_succ_cons, List.take_zero, hv'] at this
        exact this

/-- C11. For every validity predicate and every string `S`, `eachPrefix(S)` is
true exactly when every non-empty prefix of `S`, `S` included, satisfies the
predicate; `eachPrefix("")` is true whatever the predicate says about the empty
string, and for a non-empty `S`, `eachPrefix(S)` implies that `S` satisfies the
predicate. -/
theorem eachPrefix_iff (valid : Str → Bool) (S : Str) :
    (eachPrefix valid S = true ↔
      ∀ n, 1 ≤ n → n ≤ S.length → valid (S.take n) = true) ∧
    eachPrefix valid [] = true ∧
    (S ≠ [] → eachPrefix valid S = true → valid S = true) := by
  have h : eachPrefix valid S = true ↔
      ∀ n, 1 ≤ n → n ≤ S.length → valid (S.take n) = true := by
    rw [eachPrefix, eachPrefixLoop_iff]
    simp only [List.nil_append]
  refine ⟨h, rfl, fun hS hE => ?_⟩
  have hpos : 0 < S.length := List.length_pos.mpr hS
  have := h.mp hE S.length hpos le_rfl
  rwa [List.take_length] at this

/-- Witness for C11: the predicate "contains `1`" on a string whose first
character is `0`, and on the empty string. -/
theorem eachPrefix_iff_witness :
    eachPrefix (containsPat ['1']) ['0', '1'] = false ∧
    eachPrefix (containsPat ['0']) ['0', '1'] = true ∧
    containsPat ['1'] [] = false ∧
    ((eachPrefix (containsPat ['0']) ['0', '1'] = true ↔
      ∀ n, 1 ≤ n → n ≤ (['0', '1'] : Str).length →
        containsPat ['0'] (List.take n ['0', '1']) = true) ∧
    eachPrefix (containsPat ['0']) [] = true ∧
    ((['0', '1'] : Str) ≠ [] → eachPrefix (containsPat ['0']) ['0', '1'] = true →
      containsPat ['0'] ['0', '1'] = true)) :=
  ⟨by decide, by decide, by decide, eachPrefix_iff (containsPat ['0']) ['0', '1']⟩

/-! ## Totality and meaning of `pi` -/

/-- C12. The function `pi` is total and index-safe: for every string it returns
a table of the length of the string (no read out of bounds, no loop out of
fuel) with `0 ≤ pi(s)[i] ≤ i` for every index, hence `pi(s)[0] = 0` and
`p[g-1] < g` for every `g ≥ 1`, so the inner loop strictly decreases `g`; and
`pi("")` is the empty list. -/
theorem pi_total_bounded (s : Str) :
    (∃ p, pi s = some p ∧ p.length = s.length ∧
      (∀ i, i < s.length → ∃ v, p[i]? = some v ∧ 0 ≤ v ∧ v ≤ i) ∧
      (0 < s.length → p[0]? = some 0) ∧
      (∀ g, 1 ≤ g → g ≤ s.length → ∃ v, p[g - 1]? = some v ∧ v < g)) ∧
    pi [] = some [] := by
  obtain ⟨p, hp, hlen, hok⟩ := pi_spec s
  refine ⟨⟨p, hp, hlen, ?_, ?_, ?_⟩, rfl⟩
  · intro i hi
    obtain ⟨v, hv, hb⟩ := hok i hi
    have := hb.1.1
    exact ⟨v, hv, Nat.zero_le _, by omega⟩
  · intro h0
    obtain ⟨v, hv, hb⟩ := hok 0 h0
    have := hb.1.1
    have hv0 : v = 0 := by omega
    rw [hv, hv0]
  · intro g h1 hg
    obtain ⟨v, hv, hb⟩ := hok (g - 1) (by omega)
    have := hb.1.1
    exact ⟨v, hv, by omega⟩

/-- Witness for C12 at `s = "aabaaab"`. -/
theorem pi_total_bounded_witness :
    pi ['a', 'a', 'b', 'a', 'a', 'a', 'b'] = some [0, 1, 0, 1, 2, 2, 3] ∧
    ((∃ p, pi ['a', 'a', 'b', 'a', 'a', 'a', 'b'] = some p ∧
      p.length = (['a', 'a', 'b', 'a', 'a', 'a', 'b'] : Str).length ∧
      (∀ i, i < (['a', 'a', 'b', 'a', 'a', 'a', 'b'] : Str).length →
        ∃ v, p[i]? = some v ∧ 0 ≤ v ∧ v ≤ i) ∧
      (0 < (['a', 'a', 'b', 'a', 'a', 'a', 'b'] : Str).length → p[0]? = some 0) ∧
      (∀ g, 1 ≤ g → g ≤ (['a', 'a', 'b', 'a', 'a', 'a', 'b'] : Str).length →
        ∃ v, p[g - 1]? = some v ∧ v < g)) ∧
    pi [] = some []) :=
  ⟨by decide, pi_total_bounded ['a', 'a', 'b', 'a', 'a', 'a', 'b']⟩

theorem take_eq_take_iff (x y : Str) (k : Nat) :
    x.take k = y.take k ↔ ∀ j, j < k → x[j]? = y[j]? := by
  constructor
  · intro h j hj
    have : (x.take k)[j]? = (y.take k)[j]? := by rw [h]
    rwa [List.getElem?_take_of_lt hj, List.getElem?_take_of_lt hj] at this
  · intro h
    apply List.ext_getElem?
    intro j
    by_cases hj : j < k
    · rw [List.getElem?_take_of_lt hj, List.getElem?_take_of_lt hj]; exact h j hj
    · rw [List.getElem?_eq_none (by simp; omega), List.getElem?_eq_none (by simp; omega)]

/-- A border in terms of substrings: the first `k` characters of `s` equal the
`k` characters that end just before position `m`. -/
theorem border_iff_take_drop (s : Str) (m k : Nat) :
    Border s m k ↔ k < m ∧ s.take k = (s.drop (m - k)).take k := by
  unfold Border
  rw [take_eq_take_iff]
  constructor
  · rintro ⟨h1, h2⟩
    refine ⟨h1, fun j hj => ?_⟩
    rw [List.getElem?_drop]; exact h2 j hj
  · rintro ⟨h1, h2⟩
    refine ⟨h1, fun j hj => ?_⟩
    have := h2 j hj
    rwa [List.getElem?_drop] at this

/-- C14. The function `pi` computes the prefix function: for every string `s`
and index `i < |s|`, `pi(s)[i]` is the largest `k` with `0 ≤ k ≤ i` such that
the first `k` characters of `s` equal the `k` characters of `s` ending at
position `i`. -/
theorem pi_is_prefix_function (s : Str) :
    ∃ p, pi s = some p ∧ p.length = s.length ∧
      ∀ i, i < s.length → ∃ v, p[i]? = some v ∧
        (v ≤ i ∧ s.take v = (s.drop (i + 1 - v)).take v) ∧
        ∀ k, k ≤ i → s.take k = (s.drop (i + 1 - k)).take k → k ≤ v := by
  obtain ⟨p, hp, hlen, hok⟩ := pi_spec s
  refine ⟨p, hp, hlen, fun i hi => ?_⟩
  obtain ⟨v, hv, hb, hmax⟩ := hok i hi
  refine ⟨v, hv, ?_, fun k hk hkb => ?_⟩
  · have := (border_iff_take_drop s (i + 1) v).mp hb
    exact ⟨by omega, this.2⟩
  · exact hmax k ((border_iff_take_drop s (i + 1) k).mpr ⟨by omega, hkb⟩)

/-- Witness for C14 at `s = "aabaaab"`. -/
theorem pi_is_prefix_function_witness :
    pi ['a', 'a', 'b', 'a', 'a', 'a', 'b'] = some [0, 1, 0, 1, 2, 2, 3] ∧
    ∃ p, pi ['a', 'a', 'b', 'a', 'a', 'a', 'b'] = some p ∧
      p.length = (['a', 'a', 'b', 'a', 'a', 'a', 'b'] : Str).length ∧
      ∀ i, i < (['a', 'a', 'b', 'a', 'a', 'a', 'b'] : Str).length → ∃ v, p[i]? = some v ∧
        (v ≤ i ∧ List.take v ['a', 'a', 'b', 'a', 'a', 'a', 'b']
          = (List.drop (i + 1 - v) ['a', 'a', 'b', 'a', 'a', 'a', 'b']).take v) ∧
        ∀ k, k ≤ i → List.take k ['a', 'a', 'b', 'a', 'a', 'a', 'b']
          = (List.drop (i + 1 - k) ['a', 'a', 'b', 'a', 'a', 'a', 'b']).take k → k ≤ v :=
  ⟨by decide, pi_is_prefix_function ['a', 'a', 'b', 'a', 'a', 'a', 'b']⟩

/-! ## The flag `isStar` -/

theorem power_eq_of_isStar (A : List Str) (expo : Int) :
    power A expo true = power A expo false := by
  unfold power
  apply sorted_cmp_ext (uniquize_sorted _) (uniquize_sorted _)
  intro x
  rw [mem_uniquize, mem_uniquize, mem_powerLoop_res, mem_powerLoop_res]

/-- C15, as stated, fails at `expo = INT_MAX`: with `A = {}` the loop of
`power` never exits, so the empty string is not an element of a result of
`power(A, expo, false)`. -/
theorem power_isStar_int_max :
    ¬ ∃ res, powerInt [] 2147483647 false = some res ∧ [] ∈ res := by
  have h : powerInt [] 2147483647 false = none := powerInt_eq_none [] _ false (le_refl _)
  rintro ⟨res, hres, _⟩
  rw [h] at hres
  exact Option.noConfusion hres

/-- C15, amended. The flag `isStar` has no effect: for every `A` and `expo`,
`power(A, expo, true)` and `power(A, expo, false)` behave alike, and for
`expo < INT_MAX` both return the same list, of which the empty string is an
element. -/
theorem power_isStar_irrelevant (A : List Str) (expo : Int) :
    powerInt A expo true = powerInt A expo false ∧
    (expo < INT_MAX →
      powerInt A expo true = some (power A expo true) ∧
      powerInt A expo false = some (power A expo false) ∧
      power A expo true = power A expo false ∧ [] ∈ power A expo false) := by
  have hmem : [] ∈ power A expo false := by
    rw [power, mem_uniquize, mem_powerLoop_res]
    exact ⟨[], Nat.zero_le _, by simp, rfl⟩
  constructor
  · by_cases h : expo < INT_MAX
    · rw [powerInt_eq_some A expo true h, powerInt_eq_some A expo false h,
        power_eq_of_isStar]
    · rw [powerInt_eq_none A expo true (not_lt.mp h),
        powerInt_eq_none A expo false (not_lt.mp h)]
  · intro h
    exact ⟨powerInt_eq_some A expo true h, powerInt_eq_some A expo false h,
      power_eq_of_isStar A expo, hmem⟩

/-- Witness for C15, amended, at `A = {"0","1"}`, `expo = 1`; before `uniquize`
the two flags differ by one copy of the empty string. -/
theorem power_isStar_irrelevant_witness :
    (1 : Int) < INT_MAX ∧
    (powerLoop [['0'], ['1']] true 1).2 = [[], [], ['0'], ['1']] ∧
    (powerLoop [['0'], ['1']] false 1).2 = [[], ['0'], ['1']] ∧
    powerInt [['0'], ['1']] 1 false = some [[], ['0'], ['1']] ∧
    (powerInt [['0'], ['1']] 1 true = some (power [['0'], ['1']] 1 true) ∧
      powerInt [['0'], ['1']] 1 false = some (power [['0'], ['1']] 1 false) ∧
      power [['0'], ['1']] 1 true = power [['0'], ['1']] 1 false ∧
      [] ∈ power [['0'], ['1']] 1 false) :=
  ⟨by decide, by decide, by decide, by decide,
    (power_isStar_irrelevant [['0'], ['1']] 1).2 (by decide)⟩

/-! ## `match` with the empty pattern -/

theorem table_zero_of_sep_head (s : Str) (hs : sep ∉ s) {x v : Nat}
    (hx2 : x < 1 + s.length) (hv : IsMaxBorder ([] ++ [sep] ++ s) (x + 1) v) : v = 0 := by
  by_contra hne
  have hvx : v < x + 1 := hv.1.1
  have h := hv.1.2 0 (by omega)
  have h0 := text_get_sep [] s
  have hs' := text_get_s [] s (x - v)
  simp only [List.length_nil] at h0 hs'
  have e : x + 1 - v + 0 = 0 + 1 + (x - v) := by omega
  have hxv : x - v < s.length := by omega
  rw [e, h0, hs', List.getElem?_eq_getElem hxv] at h
  exact hs (by rw [Option.some.inj h]; exact List.getElem_mem _)

/-- C17. Empty-pattern edge case: for every text `s` without the separator,
`match(s, "")` is `[1, 2, ..., |s|]`; index `0` is never reported, and for the
empty text the result is the empty list. -/
theorem match_empty_pattern (s : Str) (hs : sep ∉ s) :
    match_ s [] = some ((List.range' 1 s.length).map (fun (x : Nat) => (x : Int))) ∧
    (∀ res, match_ s [] = some res → (0 : Int) ∉ res) ∧
    match_ [] [] = some [] := by
  have hmain : match_ s [] = some ((List.range' 1 s.length).map (fun (x : Nat) => (x : Int))) := by
    obtain ⟨p, _, _, hok, hm⟩ := match_eq s []
    rw [hm]
    simp only [List.length_nil, Nat.zero_add] at hok ⊢
    have hall : (List.range' 1 s.length).filter (fun x => decide (p[x]? = some 0))
        = List.range' 1 s.length := by
      rw [List.filter_eq_self]
      intro x hx
      rw [List.mem_range'] at hx
      obtain ⟨k, hk, rfl⟩ := hx
      obtain ⟨v, hv, hb⟩ := hok (1 + 1 * k) (by omega)
      have hv0 := table_zero_of_sep_head s hs (by omega) hb
      rw [hv, hv0]
      exact decide_eq_true rfl
    rw [hall]
    simp
  refine ⟨hmain, fun res hres => ?_, rfl⟩
  rw [hmain] at hres
  rw [← Option.some.inj hres]
  simp only [List.mem_map, List.mem_range', not_exists, not_and]
  rintro x ⟨k, hk, rfl⟩ h
  omega

/-- Witness for C17 at `s = "abc"`. -/
theorem match_empty_pattern_witness :
    sep ∉ ['a', 'b', 'c'] ∧
    match_ ['a', 'b', 'c'] [] = some [1, 2, 3] ∧
    (match_ ['a', 'b', 'c'] []
      = some ((List.range' 1 (['a', 'b', 'c'] : Str).length).map (fun (x : Nat) => (x : Int))) ∧
    (∀ res, match_ ['a', 'b', 'c'] [] = some res → (0 : Int) ∉ res) ∧
    match_ [] [] = some []) :=
  ⟨by decide, by decide, match_empty_pattern ['a', 'b', 'c'] (by decide)⟩

/-! ## Linear work of `pi` -/

theorem piWhileCount_fst (s : Str) (p : List Nat) (i : Nat) :
    ∀ fuel g, (piWhileCount s p i fuel g).map Prod.fst = piWhile s p i fuel g := by
  intro fuel
  induction fuel with
  | zero => intro g; rfl
  | succ fuel ih =>
    intro g
    by_cases hg : g = 0
    · simp [piWhileCount, piWhile, hg]
    · cases hsi : s[i]? with
      | none => simp [piWhileCount, piWhile, hg, hsi]
      | some si =>
        cases hsg : s[g]? with
        | none => simp [piWhileCount, piWhile, hg, hsi, hsg]
        | some sg =>
          by_cases hc : si = sg
          · simp [piWhileCount, piWhile, hg, hsi, hsg, hc]
          · cases hpg : p[g - 1]? with
            | none => simp [piWhileCount, piWhile, hg, hsi, hsg, hc, hpg]
            | some v =>
              have := ih v
              cases hr : piWhileCount s p i fuel v with
              | none =>
                rw [hr] at this
                simp [piWhileCount, piWhile, hg, hsi, hsg, hc, hpg, hr, ← this]
              | some r =>
                rw [hr] at this
                simp [piWhileCount, piWhile, hg, hsi, hsg, hc, hpg, hr, ← this]

theorem piLoopCount_fst (s : Str) :
    ∀ k i p c, (piLoopCount s k i p c).map Prod.fst = piLoop s k i p := by
  intro k
  induction k with
  | zero => intro i p c; rfl
  | succ k ih =>
    intro i p c
    cases hg0 : p[i - 1]? with
    | none => simp [piLoopCount, piLoop, hg0]
    | some g0 =>
      have hw := piWhileCount_fst s p i s.length g0
      cases hr : piWhileCount s p i s.length g0 with
      | none =>
        rw [hr] at hw
        simp [piLoopCount, piLoop, hg0, hr, ← hw]
      | some r =>
        rw [hr] at hw
        cases hsi : s[i]? with
        | none => simp [piLoopCount, piLoop, hg0, hr, ← hw, hsi]
        | some si =>
          cases hsg : s[r.1]? with
          | none => simp [piLoopCount, piLoop, hg0, hr, ← hw, hsi, hsg]
          | some sg =>
            by_cases hi : i < p.length
            · simp [piLoopCount, piLoop, hg0, hr, ← hw, hsi, hsg, hi, ih]
            · simp [piLoopCount, piLoop, hg0, hr, ← hw, hsi, hsg, hi]

theorem piCount_fst (s : Str) : (piCount s).map Prod.fst = pi s :=
  piLoopCount_fst s _ _ _ _


theorem piWhileCount_le (s : Str) (p : List Nat) (i : Nat) (hp : TableLe p) :
    ∀ fuel g r, piWhileCount s p i fuel g = some r → r.1 + r.2 ≤ g := by
  intro fuel
  induction fuel with
  | zero => intro g r h; simp [piWhileCount] at h
  | succ fuel ih =>
    intro g r h
    by_cases hg : g = 0
    · simp [piWhileCount, hg] at h
      subst h; simp [hg]
    · cases hsi : s[i]? with
      | none => simp [piWhileCount, hg, hsi] at h
      | some si =>
        cases hsg : s[g]? with
        | none => simp [piWhileCount, hg, hsi, hsg] at h
        | some sg =>
          by_cases hc : si = sg
          · simp [piWhileCount, hg, hsi, hsg, hc] at h
            subst h; simp
          · cases hpg : p[g - 1]? with
            | none => simp [piWhileCount, hg, hsi, hsg, hc, hpg] at h
            | some v =>
              cases hr : piWhileCount s p i fuel v with
              | none => simp [piWhileCount, hg, hsi, hsg, hc, hpg, hr] at h
              | some r' =>
                simp [piWhileCount, hg, hsi, hsg, hc, hpg, hr] at h
                subst h
                have h1 := ih v r' hr
                have h2 := hp (g - 1) v hpg
                show r'.1 + (r'.2 + 1) ≤ g
                omega

theorem piLoopCount_le (s : Str) :
    ∀ k i p c r, 1 ≤ i → i ≤ p.length → TableLe p →
      (∀ v, p[i - 1]? = some v → c + v + 1 ≤ i) →
      piLoopCount s k i p c = some r → r.2 + 1 ≤ i + k := by
  intro k
  induction k with
  | zero =>
    intro i p c r h1 hlen _ hinv h
    simp [piLoopCount] at h
    subst h
    have := hinv _ (List.getElem?_eq_getElem (show i - 1 < p.length by omega))
    show c + 1 ≤ i + 0
    omega
  | succ k ih =>
    intro i p c r h1 hlen hp hinv h
    cases hg0 : p[i - 1]? with
    | none => simp [piLoopCount, hg0] at h
    | some g0 =>
      cases hr : piWhileCount s p i s.length g0 with
      | none => simp [piLoopCount, hg0, hr] at h
      | some w =>
        cases hsi : s[i]? with
        | none => simp [piLoopCount, hg0, hr, hsi] at h
        | some si =>
          cases hsg : s[w.1]? with
          | none => simp [piLoopCount, hg0, hr, hsi, hsg] at h
          | some sg =>
            by_cases hi : i < p.length
            · simp only [piLoopCount, hg0, hr, hsi, hsg, hi, Option.bind_eq_bind,
                Option.some_bind, if_true] at h
              have hw := piWhileCount_le s p i hp s.length g0 w hr
              have hg0i := hp (i - 1) g0 hg0
              have hc := hinv g0 hg0
              have hb : (if si = sg then 1 else 0) ≤ 1 := by split <;> omega
              have := ih (i + 1) _ _ r (by omega) (by simp; omega) (by
                intro j v hj
                rw [List.getElem?_set] at hj
                by_cases hij : i = j
                · rw [if_pos hij, if_pos hi] at hj
                  have := Option.some.inj hj
                  omega
                · rw [if_neg hij] at hj
                  exact hp j v hj) (by
                intro v hv
                rw [Nat.add_sub_cancel, List.getElem?_set, if_pos rfl, if_pos hi] at hv
                have := Option.some.inj hv
                omega) h
              omega
            · simp [piLoopCount, hg0, hr, hsi, hsg, hi] at h

theorem piCount_le (s : Str) : ∃ p c, piCount s = some (p, c) ∧ pi s = some p ∧ c ≤ s.length := by
  obtain ⟨p, hp, _, _⟩ := pi_spec s
  have hfst := piCount_fst s
  rw [hp] at hfst
  cases hc : piCount s with
  | none => rw [hc] at hfst; simp at hfst
  | some r =>
    rw [hc] at hfst
    have hr1 : r.1 = p := by simpa using hfst
    refine ⟨p, r.2, by rw [← hr1], hp, ?_⟩
    by_cases hs : s.length = 0
    · have : piCount s = some ([], 0) := by simp [piCount, hs, piLoopCount]
      rw [this] at hc
      rw [← Option.some.inj hc]
      exact Nat.zero_le _
    · have := piLoopCount_le s (s.length - 1) 1 (List.replicate s.length 0) 0 r le_rfl
        (by simp; omega) (by
          intro j v hj
          rw [List.getElem?_replicate] at hj
          split at hj
          · rw [← Option.some.inj hj]; exact Nat.zero_le _
          · exact Option.noConfusion hj) (by
          intro v hv
          rw [List.getElem?_replicate] at hv
          split at hv
          · rw [← Option.some.inj hv]
          · exact Option.noConfusion hv) hc
      omega

/-- C13. Linear work: for every string `s` the inner fallback loop of `pi`
executes its body `g = p[g-1]` at most `|s|` times over the whole run, so
`pi(s)` executes at most `2|s|` loop bodies and `match(text, pat)` at most
`3(|text| + |pat| + 1)`. -/
theorem pi_linear_work (s pat : Str) :
    (∃ p c, piCount s = some (p, c) ∧ pi s = some p ∧ c ≤ s.length) ∧
    (∃ n, piSteps s = some n ∧ n ≤ 2 * s.length) ∧
    (∃ n, matchSteps s pat = some n ∧ n ≤ 3 * (s.length + pat.length + 1)) := by
  have hsteps : ∀ t : Str, ∃ n, piSteps t = some n ∧ n ≤ 2 * t.length := by
    intro t
    obtain ⟨p, c, hc, _, hle⟩ := piCount_le t
    exact ⟨t.length - 1 + c, by simp [piSteps, hc], by omega⟩
  refine ⟨piCount_le s, hsteps s, ?_⟩
  obtain ⟨n, hn, hle⟩ := hsteps (pat ++ [sep] ++ s)
  rw [text_length] at hle
  exact ⟨n + s.length, by simp only [matchSteps, hn, Option.map_some'], by omega⟩

/-! ## `specialValid` -/

theorem occurrences_sorted (s pat : Str) : (occurrences s pat).Sorted (· < ·) :=
  List.Pairwise.filter _ (List.pairwise_lt_range _)

theorem mem_occurrences (s pat : Str) (a : Nat) :
    a ∈ occurrences s pat ↔ a + pat.length ≤ s.length ∧ (s.drop a).take pat.length = pat := by
  simp only [occurrences, List.mem_filter, List.mem_range, decide_eq_true_eq]
  constructor
  · rintro ⟨_, h⟩
    refine ⟨?_, h⟩
    have hl := congrArg List.length h
    simp only [List.length_take, List.length_drop] at hl
    omega
  · rintro ⟨h1, h2⟩
    exact ⟨by omega, h2⟩

/-- For a non-empty pattern `match` returns the list of occurrence starts. -/
theorem match_eq_occurrences (s pat : Str) (hpat : pat ≠ []) (hs : sep ∉ s) (hp : sep ∉ pat) :
    match_ s pat = some ((occurrences s pat).map (fun (x : Nat) => (x : Int))) := by
  obtain ⟨res, hres, hsorted, hmem⟩ := match_mem_sorted s pat hpat hs hp
  rw [hres]
  congr 1
  have hs2 : ((occurrences s pat).map (fun (x : Nat) => (x : Int))).Sorted (· < ·) := by
    rw [List.Sorted, List.pairwise_map]
    exact List.Pairwise.imp (fun hab => by omega) (occurrences_sorted s pat)
  refine List.eq_of_perm_of_sorted ((List.perm_ext_iff_of_nodup hsorted.nodup hs2.nodup).mpr ?_)
    hsorted hs2
  intro i
  rw [hmem, List.mem_map]
  constructor
  · rintro ⟨h0, hle, hocc⟩
    obtain ⟨a, rfl⟩ := Int.eq_ofNat_of_zero_le h0
    rw [Int.toNat_ofNat] at hocc
    exact ⟨a, (mem_occurrences s pat a).mpr ⟨by omega, hocc⟩, rfl⟩
  · rintro ⟨a, ha, rfl⟩
    obtain ⟨h1, h2⟩ := (mem_occurrences s pat a).mp ha
    exact ⟨by omega, by omega, by rw [Int.toNat_ofNat]; exact h2⟩

theorem specialValidLoop_spec (res : List Int) (m : Nat) :
    ∀ k i, 1 ≤ i → i + k = res.length →
      ∃ b, specialValidLoop res m k i = some b ∧
        (b = true ↔ List.Chain' (fun x y : Int => x + (m : Int) ≤ y) (res.drop (i - 1)) ∧
          res.length % 2 = 1) := by
  intro k
  induction k with
  | zero =>
    intro i h1 hik
    refine ⟨_, rfl, ?_⟩
    have hd : res.drop (i - 1) = [res[i - 1]] := by
      rw [List.drop_eq_getElem_cons (show i - 1 < res.length by omega)]
      have : i - 1 + 1 = res.length := by omega
      rw [this, List.drop_length]
    rw [hd, Nat.and_one_is_mod]
    simp only [List.chain'_singleton, true_and, decide_eq_true_eq]
    omega
  | succ k ih =>
    intro i h1 hik
    have hi1 : i - 1 < res.length := by omega
    have hi : i < res.length := by omega
    have hd : res.drop (i - 1) = res[i - 1] :: res.drop i := by
      rw [List.drop_eq_getElem_cons hi1]
      have : i - 1 + 1 = i := by omega
      rw [this]
    have hd2 : res.drop i = res[i] :: res.drop (i + 1) := List.drop_eq_getElem_cons hi
    obtain ⟨b, hb, hbiff⟩ := ih (i + 1) (by omega) (by omega)
    rw [Nat.add_sub_cancel] at hbiff
    by_cases hc : res[i - 1] + (m : Int) > res[i]
    · refine ⟨false, ?_, ?_⟩
      · simp [specialValidLoop, List.getElem?_eq_getElem hi1, List.getElem?_eq_getElem hi, hc]
      · rw [hd, hd2, List.chain'_cons]
        constructor
        · intro h; exact Bool.noConfusion h
        · rintro ⟨⟨h, _⟩, _⟩; omega
    · refine ⟨b, ?_, ?_⟩
      · simp [specialValidLoop, List.getElem?_eq_getElem hi1, List.getElem?_eq_getElem hi, hc, hb]
      · rw [hbiff, hd, hd2, List.chain'_cons, ← hd2]
        constructor
        · rintro ⟨h1, h2⟩; exact ⟨⟨by omega, h1⟩, h2⟩
        · rintro ⟨⟨_, h1⟩, h2⟩; exact ⟨h1, h2⟩

theorem pairwise_gap_iff (occ : List Nat) (m : Nat) (hs : occ.Sorted (· < ·)) :
    occ.Pairwise (fun a b => a + m ≤ b) ↔
      ∀ i, i ∈ occ → ∀ j, j ∈ occ → i ≠ j → i + m ≤ j ∨ j + m ≤ i := by
  constructor
  · intro h
    have h' : occ.Pairwise (fun a b => a + m ≤ b ∨ b + m ≤ a) := List.Pairwise.imp Or.inl h
    exact List.Pairwise.forall (fun a b hab => hab.symm) h'
  · intro h
    refine List.Pairwise.imp_of_mem ?_ hs
    intro a b ha hb hab
    rcases h a ha b hb (by omega) with h | h
    · exact h
    · omega

/-- C18. For a non-empty pattern, with the separator occurring neither in the
text nor in the pattern, `specialValid(s, pat)` returns a value, and it is true
exactly when any two distinct occurrence starts of `pat` in `s` differ by at
least `|pat|` (no two occurrences overlap) and the number of occurrences is
odd. -/
theorem specialValid_iff (s pat : Str) (hpat : pat ≠ []) (hs : sep ∉ s) (hp : sep ∉ pat) :
    ∃ b, specialValid s pat = some b ∧
      (b = true ↔
        (∀ i, i ∈ occurrences s pat → ∀ j, j ∈ occurrences s pat → i ≠ j →
          i + pat.length ≤ j ∨ j + pat.length ≤ i) ∧
        (occurrences s pat).length % 2 = 1) := by
  have hm := match_eq_occurrences s pat hpat hs hp
  rw [← pairwise_gap_iff _ _ (occurrences_sorted s pat)]
  by_cases h0 : (occurrences s pat).length = 0
  · refine ⟨false, ?_, ?_⟩
    · simp [specialValid, hm, h0, specialValidLoop]
    · rw [h0]; simp
  · obtain ⟨b, hb, hiff⟩ := specialValidLoop_spec
      ((occurrences s pat).map (fun (x : Nat) => (x : Int))) pat.length
      ((occurrences s pat).length - 1) 1 le_rfl (by simp; omega)
    refine ⟨b, ?_, ?_⟩
    · simp only [specialValid, hm, Option.bind_eq_bind, Option.some_bind]
      simpa using hb
    · rw [hiff]
      haveI : IsTrans Int (fun x y : Int => x + (pat.length : Int) ≤ y) :=
        ⟨fun a b c hab hbc => by
          show a + (pat.length : Int) ≤ c
          have h1 : a + (pat.length : Int) ≤ b := hab
          have h2 : b + (pat.length : Int) ≤ c := hbc
          omega⟩
      rw [Nat.sub_self, List.drop_zero, List.chain'_iff_pairwise, List.pairwise_map,
        List.length_map]
      constructor
      · rintro ⟨h1, h2⟩
        exact ⟨List.Pairwise.imp (fun hab => by omega) h1, h2⟩
      · rintro ⟨h1, h2⟩
        exact ⟨List.Pairwise.imp (fun hab => by omega) h1, h2⟩

/-- Witness for C18: `"aaaa"` holds three overlapping occurrences of `"aa"`,
`"abab"` two disjoint occurrences of `"ab"`, `"abcab"` holds `"abc"` once. -/
theorem specialValid_iff_witness :
    (['a', 'b', 'c'] ≠ [] ∧ sep ∉ ['a', 'b', 'c', 'a', 'b'] ∧ sep ∉ ['a', 'b', 'c']) ∧
    specialValid ['a', 'a', 'a', 'a'] ['a', 'a'] = some false ∧
    specialValid ['a', 'b', 'a', 'b'] ['a', 'b'] = some false ∧
    specialValid ['a', 'b', 'c', 'a', 'b'] ['a', 'b', 'c'] = some true ∧
    ∃ b, specialValid ['a', 'b', 'c', 'a', 'b'] ['a', 'b', 'c'] = some b ∧
      (b = true ↔
        (∀ i, i ∈ occurrences ['a', 'b', 'c', 'a', 'b'] ['a', 'b', 'c'] →
          ∀ j, j ∈ occurrences ['a', 'b', 'c', 'a', 'b'] ['a', 'b', 'c'] → i ≠ j →
          i + (['a', 'b', 'c'] : Str).length ≤ j ∨ j + (['a', 'b', 'c'] : Str).length ≤ i) ∧
        (occurrences ['a', 'b', 'c', 'a', 'b'] ['a', 'b', 'c']).length % 2 = 1) :=
  ⟨⟨by decide, by decide, by decide⟩, by decide, by decide, by decide,
    specialValid_iff ['a', 'b', 'c', 'a', 'b'] ['a', 'b', 'c'] (by decide) (by decide)
      (by decide)⟩

/-! ## `power` over single-character strings -/

theorem length_flatten_of_singletons :
    ∀ (l : List Str), (∀ a, a ∈ l → a.length = 1) → l.flatten.length = l.length
  | [], _ => rfl
  | a :: l, h => by
    rw [List.flatten_cons, List.length_append, h a (List.mem_cons_self _ _),
      length_flatten_of_singletons l (fun b hb => h b (List.mem_cons_of_mem _ hb)),
      List.length_cons, Nat.add_comm]

theorem mem_flatten_of_singletons {A : List Str} (hA : ∀ a, a ∈ A → a.length = 1) :
    ∀ (l : List Str), (∀ a, a ∈ l → a ∈ A) → ∀ c, c ∈ l.flatten → [c] ∈ A := by
  intro l hl c hc
  obtain ⟨a, ha, hca⟩ := List.mem_flatten.mp hc
  have h1 := hA a (hl a ha)
  obtain ⟨d, rfl⟩ := List.length_eq_one.mp h1
  rw [List.mem_singleton.mp hca]
  exact hl _ ha

theorem flatten_map_singleton : ∀ s : Str, (s.map (fun c => [c])).flatten = s
  | [] => rfl
  | c :: s => by
    rw [List.map_cons, List.flatten_cons, flatten_map_singleton s]; rfl

theorem mem_powerLoop_base_chars (A : List Str) (hA : ∀ a, a ∈ A → a.length = 1)
    (isStar : Bool) (n : Nat) (s : Str) :
    s ∈ (powerLoop A isStar n).1 ↔ s.length = n ∧ ∀ c, c ∈ s → [c] ∈ A := by
  rw [mem_powerLoop_base]
  constructor
  · rintro ⟨l, hl, hlA, rfl⟩
    exact ⟨by rw [length_flatten_of_singletons l (fun a ha => hA a (hlA a ha)), hl],
      mem_flatten_of_singletons hA l hlA⟩
  · rintro ⟨hlen, hc⟩
    refine ⟨s.map (fun c => [c]), by simpa using hlen, ?_, (flatten_map_singleton s).symm⟩
    intro a ha
    obtain ⟨c, hcs, rfl⟩ := List.mem_map.mp ha
    exact hc c hcs

theorem mem_powerLoop_res_chars (A : List Str) (hA : ∀ a, a ∈ A → a.length = 1)
    (isStar : Bool) (n : Nat) (s : Str) :
    s ∈ (powerLoop A isStar n).2 ↔ s.length ≤ n ∧ ∀ c, c ∈ s → [c] ∈ A := by
  rw [mem_powerLoop_res]
  constructor
  · rintro ⟨l, hl, hlA, rfl⟩
    exact ⟨by rw [length_flatten_of_singletons l (fun a ha => hA a (hlA a ha))]; exact hl,
      mem_flatten_of_singletons hA l hlA⟩
  · rintro ⟨hlen, hc⟩
    refine ⟨s.map (fun c => [c]), by simpa using hlen, ?_, (flatten_map_singleton s).symm⟩
    intro a ha
    obtain ⟨c, hcs, rfl⟩ := List.mem_map.mp ha
    exact hc c hcs

theorem length_uniquize_of_nodup {l : List Str} (h : l.Nodup) : (uniquize l).length = l.length :=
  List.Perm.length_eq
    ((List.perm_ext_iff_of_nodup (sorted_cmp_nodup (uniquize_sorted l)) h).mpr
      (fun _ => mem_uniquize))

theorem length_flatMap_const {α β : Type} (f : α → List β) (c : Nat)
    (hf : ∀ a, (f a).length = c) : ∀ l : List α, (l.flatMap f).length = l.length * c
  | [] => by simp
  | a :: l => by
    rw [List.flatMap_cons, List.length_append, hf a, length_flatMap_const f c hf l,
      List.length_cons, Nat.succ_mul, Nat.add_comm]

theorem nodup_product (A B : List Str) (hA : ∀ a, a ∈ A → a.length = 1) (hAnd : A.Nodup)
    (hB : B.Nodup) : (A.flatMap (fun a => B.map (fun b => a ++ b))).Nodup := by
  rw [List.nodup_flatMap]
  constructor
  · intro a _
    exact hB.map (fun b b' h => List.append_cancel_left h)
  · refine List.Pairwise.imp_of_mem ?_ hAnd
    intro a a' ha ha' hne
    show List.Disjoint _ _
    intro x hx hx'
    obtain ⟨b, _, rfl⟩ := List.mem_map.mp hx
    obtain ⟨b', _, h⟩ := List.mem_map.mp hx'
    have := (List.append_inj h (by rw [hA a ha, hA a' ha'])).1
    exact hne this.symm

theorem length_powerLoop_base (A : List Str) (hA : ∀ a, a ∈ A → a.length = 1) (hAnd : A.Nodup)
    (isStar : Bool) : ∀ n, (powerLoop A isStar n).1.length = A.length ^ n
  | 0 => rfl
  | n + 1 => by
    have hbase : (powerLoop A isStar n).1.Nodup := by
      cases n with
      | zero => simp [powerLoop, powerInit]
      | succ n => exact sorted_cmp_nodup (uniquize_sorted _)
    show (uniquize _).length = _
    rw [length_uniquize_of_nodup (nodup_product A _ hA hAnd hbase),
      length_flatMap_const _ (powerLoop A isStar n).1.length (fun a => by simp),
      length_powerLoop_base A hA hAnd isStar n, pow_succ, Nat.mul_comm]

theorem powerLoop_false_res (A : List Str) (hA : ∀ a, a ∈ A → a.length = 1) (hAnd : A.Nodup) :
    ∀ n, (powerLoop A false n).2.Nodup ∧
      (powerLoop A false n).2.length = ∑ j ∈ Finset.range (n + 1), A.length ^ j
  | 0 => by simp [powerLoop, powerInit]
  | n + 1 => by
    obtain ⟨hnd, hlen⟩ := powerLoop_false_res A hA hAnd n
    have e : (powerLoop A false (n + 1)).2
        = (powerLoop A false n).2 ++ (powerLoop A false (n + 1)).1 := rfl
    rw [e]
    constructor
    · rw [List.nodup_append]
      refine ⟨hnd, sorted_cmp_nodup (uniquize_sorted _), ?_⟩
      intro x hx hx'
      have h1 := ((mem_powerLoop_res_chars A hA false n x).mp hx).1
      have h2 := ((mem_powerLoop_base_chars A hA false (n + 1) x).mp hx').1
      omega
    · rw [List.length_append, hlen, length_powerLoop_base A hA hAnd false (n + 1),
        Finset.sum_range_succ _ (n + 1)]

theorem power_true_eq_false (A : List Str) (expo : Int) :
    power A expo true = power A expo false :=
  power_eq_of_isStar A expo

theorem length_power_chars (A : List Str) (hA : ∀ a, a ∈ A → a.length = 1) (hAnd : A.Nodup)
    (k : Int) :
    (power A k true).length = ∑ j ∈ Finset.range (k.toNat + 1), A.length ^ j := by
  rw [power_true_eq_false]
  unfold power
  rw [length_uniquize_of_nodup (powerLoop_false_res A hA hAnd _).1]
  exact (powerLoop_false_res A hA hAnd _).2

theorem sorted_cmp_head {l : List Str} (h : l.Sorted (fun a b => cmp a b = true)) {x : Str}
    (hx : x ∈ l) (hmin : ∀ y, y ∈ l → cmp y x = false) : l.head? = some x := by
  cases l with
  | nil => cases hx
  | cons a t =>
    rcases List.mem_cons.mp hx with rfl | hxt
    · rfl
    · have h1 := List.rel_of_sorted_cons h x hxt
      rw [hmin a (List.mem_cons_self _ _)] at h1
      exact Bool.noConfusion h1

theorem sorted_cmp_getLast :
    ∀ {l : List Str}, l.Sorted (fun a b => cmp a b = true) → ∀ {x : Str}, x ∈ l →
      (∀ y, y ∈ l → cmp x y = false) → l.getLast? = some x
  | [], _, _, hx, _ => by cases hx
  | [a], _, x, hx, _ => by
    rw [List.mem_singleton.mp hx]; rfl
  | a :: b :: t, h, x, hx, hmax => by
    rw [List.getLast?_cons_cons]
    have hxt : x ∈ b :: t := by
      rcases List.mem_cons.mp hx with rfl | hxt
      · have h1 := List.rel_of_sorted_cons h b (List.mem_cons_self _ _)
        rw [hmax b (List.mem_cons_of_mem _ (List.mem_cons_self _ _))] at h1
        exact Bool.noConfusion h1
      · exact hxt
    exact sorted_cmp_getLast h.of_cons hxt (fun y hy => hmax y (List.mem_cons_of_mem _ hy))

theorem cmp_nil_right (y : Str) : cmp y [] = false := by
  cases y with
  | nil => rfl
  | cons c y => simp [cmp]

theorem strLt_ones : ∀ y : Str, (∀ c, c ∈ y → c = '0' ∨ c = '1') →
    strLt (List.replicate y.length '1') y = false
  | [], _ => rfl
  | c :: y, h => by
    have ih := strLt_ones y (fun d hd => h d (List.mem_cons_of_mem _ hd))
    rcases h c (List.mem_cons_self _ _) with rfl | rfl
    · have h1 : ¬ ('1' : Char) < '0' := by decide
      have h2 : ('0' : Char) < '1' := by decide
      simp only [List.length_cons, List.replicate_succ, strLt, h1, h2, if_true, if_false]
    · have h1 : ¬ ('1' : Char) < '1' := by decide
      simp only [List.length_cons, List.replicate_succ, strLt, h1, if_false]
      exact ih

theorem mem_power_chars (A : List Str) (hA : ∀ a, a ∈ A → a.length = 1) (k : Int) (hk : 0 ≤ k)
    (s : Str) : s ∈ power A k true ↔ (s.length : Int) ≤ k ∧ ∀ c, c ∈ s → [c] ∈ A := by
  rw [power, mem_uniquize, mem_powerLoop_res_chars A hA]
  constructor
  · rintro ⟨h1, h2⟩; exact ⟨by omega, h2⟩
  · rintro ⟨h1, h2⟩; exact ⟨by omega, h2⟩

theorem main_eq_power : main = power [['0'], ['1']] 10 true := by
  have hlen : (power [['0'], ['1']] 10 true).length = 2047 := by
    rw [length_power_chars _ (by decide) (by decide)]
    decide
  have e : uniquize (power [['0'], ['1']] 10 true) = power [['0'], ['1']] 10 true :=
    uniquize_eq_self (uniquize_sorted _)
  have hv : isValid = fun _ => true := rfl
  rw [main, mainWith, e, hv]
  exact filterLoop_true_eq_self _ _ (by rw [hlen]; decide)

/-- C16, as stated, fails at `k = INT_MAX`: the empty list `A` is a list of
`n = 0` pairwise distinct single-character strings, and there the loop of
`power` never exits, so no list is returned. -/
theorem power_single_chars_int_max :
    ((∀ a, a ∈ ([] : List Str) → a.length = 1) ∧ ([] : List Str).Nodup ∧
      (0 : Int) ≤ 2147483647) ∧
    powerInt [] 2147483647 true = none :=
  ⟨⟨by decide, by decide, by decide⟩, powerInt_eq_none [] _ true (le_refl _)⟩

/-- C16, amended. For every list `A` of `n` pairwise distinct single-character
strings and every `0 ≤ k < INT_MAX`, `power(A, k)` returns the duplicate-free,
(length, then lexicographic)-sorted list of exactly the strings of length at
most `k` over those characters, and it has `1 + n + ... + n^k` elements; as
compiled, `main` prints exactly 2047 lines, the first the empty string and the
last `"1111111111"`. -/
theorem power_single_chars (A : List Str) (k : Int) (hA : ∀ a, a ∈ A → a.length = 1)
    (hAnd : A.Nodup) (hk : 0 ≤ k) (hmax : k < INT_MAX) :
    powerInt A k true = some (power A k true) ∧
    (∀ s, s ∈ power A k true ↔ (s.length : Int) ≤ k ∧ ∀ c, c ∈ s → [c] ∈ A) ∧
    (power A k true).Nodup ∧ (power A k true).Sorted LengthLex ∧
    (power A k true).length = ∑ j ∈ Finset.range (k.toNat + 1), A.length ^ j ∧
    main.length = 2047 ∧ main.head? = some [] ∧
    main.getLast? = some ['1', '1', '1', '1', '1', '1', '1', '1', '1', '1'] := by
  have hA2 : ∀ a, a ∈ ([['0'], ['1']] : List Str) → a.length = 1 := by decide
  have hmem := mem_power_chars [['0'], ['1']] hA2 10 (by decide)
  have hsorted : (power [['0'], ['1']] 10 true).Sorted (fun a b => cmp a b = true) :=
    uniquize_sorted _
  refine ⟨powerInt_eq_some A k true hmax, mem_power_chars A hA k hk,
    sorted_cmp_nodup (uniquize_sorted _),
    sorted_lengthLex (uniquize_sorted _), length_power_chars A hA hAnd k, ?_, ?_, ?_⟩
  · rw [main_eq_power, length_power_chars _ hA2 (by decide)]
    decide
  · rw [main_eq_power]
    exact sorted_cmp_head hsorted ((hmem []).mpr ⟨by decide, by simp⟩)
      (fun y _ => cmp_nil_right y)
  · rw [main_eq_power]
    refine sorted_cmp_getLast hsorted ((hmem _).mpr ⟨by decide, by decide⟩) ?_
    intro y hy
    obtain ⟨hlen, hc⟩ := (hmem y).mp hy
    have hc' : ∀ c, c ∈ y → c = '0' ∨ c = '1' := by
      intro c hcy
      have := hc c hcy
      simp only [List.mem_cons, List.cons.injEq, and_true, List.mem_singleton,
        List.not_mem_nil, or_false] at this
      exact this
    have hlen' : y.length ≤ 10 := by omega
    unfold cmp
    by_cases hl : y.length = 10
    · have := strLt_ones y hc'
      rw [hl] at this
      rw [if_neg (by simp [hl])]
      exact this
    · rw [if_pos (by simp; omega)]
      exact decide_eq_false (by simp; omega)

/-- Witness for C16, amended, at `A = {"0","1"}`, `k = 2`: seven strings. -/
theorem power_single_chars_witness :
    ((∀ a, a ∈ ([['0'], ['1']] : List Str) → a.length = 1) ∧
      ([['0'], ['1']] : List Str).Nodup ∧ (0 : Int) ≤ 2 ∧ (2 : Int) < INT_MAX) ∧
    (power [['0'], ['1']] 2 true).length = 7 ∧
    (powerInt [['0'], ['1']] 2 true = some (power [['0'], ['1']] 2 true) ∧
    (∀ s, s ∈ power [['0'], ['1']] 2 true ↔
        (s.length : Int) ≤ 2 ∧ ∀ c, c ∈ s → [c] ∈ ([['0'], ['1']] : List Str)) ∧
    (power [['0'], ['1']] 2 true).Nodup ∧ (power [['0'], ['1']] 2 true).Sorted LengthLex ∧
    (power [['0'], ['1']] 2 true).length
      = ∑ j ∈ Finset.range ((2 : Int).toNat + 1), ([['0'], ['1']] : List Str).length ^ j ∧
    main.length = 2047 ∧ main.head? = some [] ∧
    main.getLast? = some ['1', '1', '1', '1', '1', '1', '1', '1', '1', '1']) :=
  ⟨⟨by decide, by decide, by decide, by decide⟩, by decide,
    power_single_chars [['0'], ['1']] 2 (by decide) (by decide) (by decide) (by decide)⟩

end RandomGenerator2

namespace GraphMaker

theorem ubah_of_nonneg {a b : Int} (ha : 0 ≤ a) (hb : 0 ≤ b) :
    ubah a b = a % 6 * 6 + b % 6 + 1 := by
  unfold ubah N
  rw [Int.tmod_eq_emod ha (by decide), Int.tmod_eq_emod hb (by decide)]

theorem main_eq : main = some (36, mainLines) := by decide

theorem mainLines_shape :
    mainLines.length = 108 ∧ (∀ l, l ∈ mainLines.take 72 → l.2.2 = 1) ∧
    mainLines.drop 72 = (List.range 36).map (fun (i : Nat) => ((i : Int) + 1, (i : Int) + 1, 0)) := by
  decide

theorem mainLines_out :
    ∀ i, i ∈ List.range 6 → ∀ j, j ∈ List.range 6 →
      outTargets mainLines (ubah (i : Int) (j : Int))
          = [ubah (((i : Int) + 1) % 6) (j : Int), ubah (i : Int) (((j : Int) - 1) % 6)] ∨
      outTargets mainLines (ubah (i : Int) (j : Int))
          = [ubah (i : Int) (((j : Int) - 1) % 6), ubah (((i : Int) + 1) % 6) (j : Int)] := by
  decide

/-- C19. In `graphMaker`, `ubah` restricted to `0 ≤ a, b < 6` is a bijection
onto `1 .. 36`; for non-negative arguments `ubah(a, b) = ubah(a mod 6, b mod 6)`
and the value is a valid index into `edge[105]`; and `main` prints `36`, then
72 weight-1 edges, two for every node `ubah(i, j)`, going to
`ubah(i+1 mod 6, j)` and to `ubah(i, j-1 mod 6)`, then the 36 weight-0
self-loops. -/
theorem ubah_grid_graph :
    (∀ a b : Int, 0 ≤ a → a < 6 → 0 ≤ b → b < 6 → 1 ≤ ubah a b ∧ ubah a b ≤ 36) ∧
    (∀ a b a' b' : Int, 0 ≤ a → a < 6 → 0 ≤ b → b < 6 → 0 ≤ a' → a' < 6 → 0 ≤ b' → b' < 6 →
      ubah a b = ubah a' b' → a = a' ∧ b = b') ∧
    (∀ v : Int, 1 ≤ v → v ≤ 36 →
      ∃ a b : Int, 0 ≤ a ∧ a < 6 ∧ 0 ≤ b ∧ b < 6 ∧ ubah a b = v) ∧
    (∀ a b : Int, 0 ≤ a → 0 ≤ b →
      ubah a b = ubah (a % 6) (b % 6) ∧ 1 ≤ ubah a b ∧ ubah a b ≤ 36 ∧ ubah a b < 105) ∧
    ∃ ls, main = some (36, ls) ∧ ls.length = 108 ∧
      (∀ l, l ∈ ls.take 72 → l.2.2 = 1) ∧
      ls.drop 72 = (List.range 36).map (fun (i : Nat) => ((i : Int) + 1, (i : Int) + 1, 0)) ∧
      ∀ i j : Int, 0 ≤ i → i < 6 → 0 ≤ j → j < 6 →
        outTargets ls (ubah i j) = [ubah ((i + 1) % 6) j, ubah i ((j - 1) % 6)] ∨
        outTargets ls (ubah i j) = [ubah i ((j - 1) % 6), ubah ((i + 1) % 6) j] := by
  refine ⟨?_, ?_, ?_, ?_, mainLines, main_eq, mainLines_shape.1, mainLines_shape.2.1,
    mainLines_shape.2.2, ?_⟩
  · intro a b ha ha' hb hb'
    rw [ubah_of_nonneg ha hb]
    omega
  · intro a b a' b' ha ha6 hb hb6 ha' ha6' hb' hb6' h
    rw [ubah_of_nonneg ha hb, ubah_of_nonneg ha' hb'] at h
    omega
  · intro v h1 h36
    refine ⟨(v - 1) / 6, (v - 1) % 6, by omega, by omega, by omega, by omega, ?_⟩
    rw [ubah_of_nonneg (by omega) (by omega)]
    omega
  · intro a b ha hb
    rw [ubah_of_nonneg ha hb, ubah_of_nonneg (Int.emod_nonneg a (by decide))
      (Int.emod_nonneg b (by decide))]
    omega
  · intro i j hi hi6 hj hj6
    have h := mainLines_out i.toNat (List.mem_range.mpr (by omega)) j.toNat
      (List.mem_range.mpr (by omega))
    rw [Int.toNat_of_nonneg hi, Int.toNat_of_nonneg hj] at h
    exact h

/-- Witness for C19 at the node `ubah(0, 0) = 1`, whose two edges go to
`ubah(1, 0) = 7` and `ubah(0, 5) = 6`. -/
theorem ubah_grid_graph_witness :
    ubah 0 0 = 1 ∧ ubah 7 13 = ubah 1 1 ∧ ubah 5 5 = 36 ∧
    outTargets mainLines (ubah 0 0) = [7, 6] ∧
    ((0 : Int) ≤ 0 ∧ (0 : Int) < 6) ∧
    (1 ≤ ubah 0 0 ∧ ubah 0 0 ≤ 36) :=
  ⟨by decide, by decide, by decide, by decide, ⟨by decide, by decide⟩,
    ubah_grid_graph.1 0 0 (by decide) (by decide) (by decide) (by decide)⟩

end GraphMaker
